import Mathlib

/-!
Verification development for the HDL_Generation repository.

The Python sources are shallowly embedded in Lean 4:
 - scores are exact rationals (`ℚ`); the Python code only ever adds and
   compares small decimal constants, and every claim checked here concerns
   the exact cascade/penalty structure, so `ℚ` is the faithful value model;
 - external effects (the LLM round trips of `llm_interface`, the iverilog
   subprocess calls of `_test_syntax` / `_test_function`) are parameters:
   every theorem quantifies over their outcomes;
 - fallible Python control flow (attribute errors, unbound locals) is
   returned as `Except PyError`.
-/

namespace HDLGen

/-- Runtime errors of the embedded Python fragments. -/
inductive PyError where
  | attributeError (attr : String)
  | nameError (name : String)
deriving DecidableEq

/-! ## Repair loop (`MoA_HLS.py`, `MoAHLSGenerator.refine_hdl_code`) -/

/-- The structured verdict that `evaluate_quality_with_details` is described
as producing (spec §4.3): pass/fail plus an error-class tag and raw
diagnostic text. -/
structure ErrorDetails where
  passed : Bool
  error_type : String
  error_message : String
deriving DecidableEq

/-- Modelled from the spec: the collaborators consumed by
`MoAHLSGenerator.refine_hdl_code`.  `evalDetails` stands for
`quality_evaluator.evaluate_quality_with_details`, a method the repository
never defines (it is only called); spec §4.3 describes it as "evaluate the
initial candidate with full diagnostic detail (not just a score — also a
structured verdict)".  `evalQuality` stands for
`quality_evaluator.evaluate_quality`, `llm` for
`self.llm.generate_response` on the refinement prompt built from
(iteration, current code, error details), `extract` for
`self.extract_code`, and `validate` for `self.validate_hdl_code`.
Theorems quantify over all such collaborator behaviours. -/
structure RefineEnv where
  evalDetails : String → ℚ × ErrorDetails
  evalQuality : String → ℚ
  llm : ℕ → String → ErrorDetails → Option String
  extract : String → Option String
  validate : String → Bool

/-- How one `refine_hdl_code` invocation ended (ghost information: the tag
records which `return`/`break` statement of the source fired; it does not
influence control flow). -/
inductive RefineExit where
  | disabled
  | acceptedEntry
  | acceptedIter
  | noResponse
  | invalidExtract
  | completedAll
deriving DecidableEq

/-- The tuple `(best_code, final_quality, iterations_performed,
original_quality)` returned by `refine_hdl_code`, plus ghost bookkeeping:
`exitKind` tags the exit path taken and `evaluated` lists the successive
refined candidates evaluated inside the loop with their scores. -/
structure RefineResult where
  best_code : String
  final_quality : ℚ
  iterations : ℕ
  original_quality : ℚ
  exitKind : RefineExit
  evaluated : List (String × ℚ)
deriving DecidableEq

/-- Best-seen fold over the evaluated candidates: a later candidate replaces
the incumbent only when its score is strictly higher (mirrors
`if refined_quality > best_quality` in the source). -/
def bestSeen (base : String × ℚ) (l : List (String × ℚ)) : String × ℚ :=
  l.foldl (fun acc p => if p.2 > acc.2 then p else acc) base

/-- The `for iteration in range(1, max_self_refinement_iterations + 1)` loop
body of `refine_hdl_code` (`MoA_HLS.py` lines 536-577).  `remaining` counts
rounds still available, `iter` is the Python loop variable; on a `break`
the source falls through to the final `return`, whose third component
equals the loop variable's final value. -/
def refineGo (env : RefineEnv) (origQ : ℚ) (maxIter : ℕ) :
    ℕ → ℕ → String → ErrorDetails → String → ℚ → List (String × ℚ) → RefineResult
  | 0, _iter, _current, _details, best, bestQ, seen =>
      ⟨best, bestQ, maxIter, origQ, .completedAll, seen⟩
  | remaining + 1, iter, current, details, best, bestQ, seen =>
      match env.llm iter current details with
      | none => ⟨best, bestQ, iter, origQ, .noResponse, seen⟩
      | some response =>
        match env.extract response with
        | none => ⟨best, bestQ, iter, origQ, .invalidExtract, seen⟩
        | some rc =>
          if rc = "" ∨ env.validate rc = false then
            ⟨best, bestQ, iter, origQ, .invalidExtract, seen⟩
          else
            let rq := (env.evalDetails rc).1
            let rd := (env.evalDetails rc).2
            let best' := if rq > bestQ then rc else best
            let bestQ' := if rq > bestQ then rq else bestQ
            if rd.passed then
              ⟨rc, rq, iter, origQ, .acceptedIter, seen ++ [(rc, rq)]⟩
            else
              refineGo env origQ maxIter remaining (iter + 1) rc rd best' bestQ'
                (seen ++ [(rc, rq)])

/-- `MoAHLSGenerator.refine_hdl_code` (`MoA_HLS.py` lines 500-578).
When self-refinement or quality caching is disabled the source immediately
scores the original code with `evaluate_quality` and returns; note that when
quality caching is disabled `self.quality_evaluator` is `None`
(constructor, line 192), so that path dereferences `None`.  Otherwise the
source calls `evaluate_quality_with_details` and runs the repair loop; with
`max_self_refinement_iterations = 0` the loop never binds `iteration` and
the final `return` raises `NameError`. -/
def refine_hdl_code (env : RefineEnv)
    (enable_self_refinement enable_quality_caching : Bool)
    (maxIter : ℕ) (original_code : String) : Except PyError RefineResult :=
  if ¬ enable_self_refinement ∨ ¬ enable_quality_caching then
    if enable_quality_caching then
      let q := env.evalQuality original_code
      .ok ⟨original_code, q, 0, q, .disabled, []⟩
    else
      .error (.attributeError "evaluate_quality")
  else
    let q := (env.evalDetails original_code).1
    let d := (env.evalDetails original_code).2
    if d.passed then
      .ok ⟨original_code, q, 0, q, .acceptedEntry, []⟩
    else if maxIter = 0 then
      .error (.nameError "iteration")
    else
      .ok (refineGo env q maxIter maxIter 1 original_code d original_code q [])

/-- The method names defined on `HDLQualityEvaluator`
(`quality_evaluator.py` lines 15-366) — the only evaluator class the
generator constructs (`MoA_HLS.py` line 190). -/
def hdlQualityEvaluatorMethodNames : List String :=
  ["__init__", "evaluate_quality", "_test_syntax", "_test_function",
   "_severity_weighted_evaluation", "_evaluate_logic_errors",
   "_evaluate_synthesis_issues", "_evaluate_style_issues",
   "_find_testbench", "_parse_simulation_result", "_fallback_evaluation"]

/-- Attribute resolution performed by the prologue of `refine_hdl_code`:
which evaluator method the first statement on each path looks up, resolved
against `HDLQualityEvaluator`'s method table (and against
`self.quality_evaluator = None` when quality caching is disabled). -/
def refineEntry (enable_self_refinement enable_quality_caching : Bool) :
    Except PyError Unit :=
  if ¬ enable_self_refinement ∨ ¬ enable_quality_caching then
    if enable_quality_caching then
      if "evaluate_quality" ∈ hdlQualityEvaluatorMethodNames then .ok ()
      else .error (.attributeError "evaluate_quality")
    else
      .error (.attributeError "evaluate_quality")
  else
    if "evaluate_quality_with_details" ∈ hdlQualityEvaluatorMethodNames then .ok ()
    else .error (.attributeError "evaluate_quality_with_details")

theorem refineGo_original_quality (env : RefineEnv) (origQ : ℚ) (maxIter : ℕ) :
    ∀ remaining iter current details best bestQ seen,
      (refineGo env origQ maxIter remaining iter current details best bestQ seen).original_quality
        = origQ := by
  intro remaining
  induction remaining with
  | zero => intro iter current details best bestQ seen; rfl
  | succ n ih =>
    intro iter current details best bestQ seen
    simp only [refineGo]
    split
    · rfl
    · split
      · rfl
      · split
        · rfl
        · split
          · rfl
          · exact ih _ _ _ _ _ _

theorem bestSeen_append_single (base : String × ℚ) (l : List (String × ℚ)) (p : String × ℚ) :
    bestSeen base (l ++ [p]) = if p.2 > (bestSeen base l).2 then p else bestSeen base l := by
  simp [bestSeen, List.foldl_append]

theorem refineGo_exhaustion (env : RefineEnv) (origQ : ℚ) (maxIter : ℕ) (base : String × ℚ) :
    ∀ remaining iter current details seen,
      iter = seen.length + 1 →
      remaining + iter = maxIter + 1 →
      ∀ r, refineGo env origQ maxIter remaining iter current details
            (bestSeen base seen).1 (bestSeen base seen).2 seen = r →
      ((r.exitKind = .noResponse ∨ r.exitKind = .invalidExtract) →
          (r.best_code, r.final_quality) = bestSeen base r.evaluated ∧
          r.iterations = r.evaluated.length + 1 ∧ r.iterations ≤ maxIter) ∧
      (r.exitKind = .completedAll →
          (r.best_code, r.final_quality) = bestSeen base r.evaluated ∧
          r.iterations = maxIter ∧ r.evaluated.length = maxIter) := by
  intro remaining
  induction remaining with
  | zero =>
    intro iter current details seen hlen hcount r hr
    simp only [refineGo] at hr
    subst hr
    exact ⟨fun hx => by cases hx <;> simp_all,
      fun _ => ⟨rfl, rfl, show seen.length = maxIter by omega⟩⟩
  | succ n ih =>
    intro iter current details seen hlen hcount r hr
    simp only [refineGo] at hr
    revert hr
    split
    · intro hr; subst hr
      exact ⟨fun _ => ⟨rfl, hlen, show iter ≤ maxIter by omega⟩, fun hx => by simp_all⟩
    · split
      · intro hr; subst hr
        exact ⟨fun _ => ⟨rfl, hlen, show iter ≤ maxIter by omega⟩, fun hx => by simp_all⟩
      · split
        · intro hr; subst hr
          exact ⟨fun _ => ⟨rfl, hlen, show iter ≤ maxIter by omega⟩, fun hx => by simp_all⟩
        · split
          · intro hr; subst hr
            exact ⟨fun hx => by cases hx <;> simp_all, fun hx => by simp_all⟩
          · intro hr
            rename_i response hresp rc hrc hvalid hpassed
            have hb := bestSeen_append_single base seen (rc, (env.evalDetails rc).1)
            have h1 : (bestSeen base (seen ++ [(rc, (env.evalDetails rc).1)])).1
                = if (env.evalDetails rc).1 > (bestSeen base seen).2 then rc
                  else (bestSeen base seen).1 := by
              rw [hb]; split <;> rfl
            have h2 : (bestSeen base (seen ++ [(rc, (env.evalDetails rc).1)])).2
                = if (env.evalDetails rc).1 > (bestSeen base seen).2 then (env.evalDetails rc).1
                  else (bestSeen base seen).2 := by
              rw [hb]; split <;> rfl
            rw [← h1, ← h2] at hr
            exact ih (iter + 1) rc (env.evalDetails rc).2
              (seen ++ [(rc, (env.evalDetails rc).1)]) (by simp [hlen]) (by omega) r hr

theorem refine_ok_original_quality (env : RefineEnv) (maxIter : ℕ)
    (original_code : String) (r : RefineResult)
    (h : refine_hdl_code env true true maxIter original_code = .ok r) :
    r.original_quality = (env.evalDetails original_code).1 := by
  unfold refine_hdl_code at h
  rw [if_neg (by simp)] at h
  dsimp only at h
  by_cases hp : (env.evalDetails original_code).2.passed = true
  · rw [if_pos hp] at h
    injection h with h
    subst h
    rfl
  · rw [if_neg hp] at h
    by_cases hm : maxIter = 0
    · rw [if_pos hm] at h
      exact Except.noConfusion h
    · rw [if_neg hm] at h
      injection h with h
      subst h
      exact refineGo_original_quality env _ maxIter maxIter 1 original_code _ original_code _ []

/-- Claim C2: for every repair-loop invocation with self-refinement and
quality caching enabled that returns a tuple, the fourth component
(`original_quality`) equals the quality measured on the initial candidate
before any repair iteration ran, whatever the iteration count or outcome. -/
theorem claim_C2 (env : RefineEnv) (maxIter : ℕ) (original_code : String) (r : RefineResult)
    (h : refine_hdl_code env true true maxIter original_code = .ok r) :
    r.original_quality = (env.evalDetails original_code).1 :=
  refine_ok_original_quality env maxIter original_code r h

def envAcceptEntry : RefineEnv :=
  { evalDetails := fun _ => (1, ⟨true, "", ""⟩)
    evalQuality := fun _ => 1
    llm := fun _ _ _ => none
    extract := fun _ => none
    validate := fun _ => false }

theorem claim_C2_witness :
    RefineResult.original_quality ⟨"m", 1, 0, 1, .acceptedEntry, []⟩
      = (envAcceptEntry.evalDetails "m").1 :=
  claim_C2 envAcceptEntry 3 "m" ⟨"m", 1, 0, 1, .acceptedEntry, []⟩ rfl

/-- Claim C3: with self-refinement and quality caching both enabled, every
invocation of `refine_hdl_code` reaches the call to
`evaluate_quality_with_details`, a method `HDLQualityEvaluator` does not
define, so attribute resolution raises `AttributeError` instead of
returning a tuple — on every input under these settings. -/
theorem claim_C3 (sr qc : Bool) (h1 : sr = true) (h2 : qc = true) :
    refineEntry sr qc = .error (.attributeError "evaluate_quality_with_details") ∧
    "evaluate_quality_with_details" ∉ hdlQualityEvaluatorMethodNames := by
  subst h1; subst h2
  exact ⟨rfl, by decide⟩

theorem claim_C3_witness :
    refineEntry true true = .error (.attributeError "evaluate_quality_with_details") ∧
    "evaluate_quality_with_details" ∉ hdlQualityEvaluatorMethodNames :=
  claim_C3 true true rfl rfl

def envNoResponse : RefineEnv :=
  { evalDetails := fun _ => (0, ⟨false, "simulation_fail", "mismatch"⟩)
    evalQuality := fun _ => 0
    llm := fun _ _ _ => none
    extract := fun _ => none
    validate := fun _ => false }

def rNoResponse : RefineResult := ⟨"m", 0, 1, 0, .noResponse, []⟩

/-- Claim C8 counterexample: with `max_iterations = 2` and a generation
service that returns no response in round 1, the loop ends without
acceptance yet returns iteration count 1, not `max_iterations` (the
source's final `return` yields the loop variable's last value, and the
conditional expression there is the identity). -/
theorem claim_C8_counterexample :
    refine_hdl_code envNoResponse true true 2 "m" = .ok rNoResponse ∧
    rNoResponse.iterations ≠ 2 :=
  ⟨rfl, by decide⟩

/-- Claim C8 (amended): in every repair-loop invocation that does not end in
acceptance — no response, failed extraction/validation, or all rounds
completed without a passing verdict — the loop returns the best-seen
candidate (the original if no iteration scored strictly higher), its score,
the iteration count at which the loop stopped (`max_iterations` when all
rounds completed; the index of the failing round, ≤ `max_iterations`, when
the service returned no response or extraction/validation failed), and the
original score. -/
theorem claim_C8 (env : RefineEnv) (maxIter : ℕ) (original_code : String) (r : RefineResult)
    (h : refine_hdl_code env true true maxIter original_code = .ok r)
    (hexit : r.exitKind = .noResponse ∨ r.exitKind = .invalidExtract ∨
      r.exitKind = .completedAll) :
    (r.best_code, r.final_quality)
        = bestSeen (original_code, (env.evalDetails original_code).1) r.evaluated ∧
    (r.evaluated = [] → r.best_code = original_code) ∧
    r.original_quality = (env.evalDetails original_code).1 ∧
    (r.exitKind = .completedAll → r.iterations = maxIter) ∧
    ((r.exitKind = .noResponse ∨ r.exitKind = .invalidExtract) →
        r.iterations = r.evaluated.length + 1 ∧ r.iterations ≤ maxIter) := by
  have horig : r.original_quality = (env.evalDetails original_code).1 :=
    refine_ok_original_quality env maxIter original_code r h
  unfold refine_hdl_code at h
  rw [if_neg (by simp)] at h
  dsimp only at h
  by_cases hp : (env.evalDetails original_code).2.passed = true
  · rw [if_pos hp] at h
    injection h with h
    subst h
    simp at hexit
  · rw [if_neg hp] at h
    by_cases hm : maxIter = 0
    · rw [if_pos hm] at h
      exact Except.noConfusion h
    · rw [if_neg hm] at h
      injection h with h
      subst h
      have H := refineGo_exhaustion env (env.evalDetails original_code).1 maxIter
        (original_code, (env.evalDetails original_code).1) maxIter 1 original_code
        (env.evalDetails original_code).2 [] rfl rfl
        (refineGo env (env.evalDetails original_code).1 maxIter maxIter 1 original_code
          (env.evalDetails original_code).2 original_code (env.evalDetails original_code).1 [])
        rfl
      refine ⟨?_, ?_, horig, fun hc => (H.2 hc).2.1, fun hb => ⟨(H.1 hb).2.1, (H.1 hb).2.2⟩⟩
      · rcases hexit with hb | hb | hc
        · exact (H.1 (Or.inl hb)).1
        · exact (H.1 (Or.inr hb)).1
        · exact (H.2 hc).1
      · intro he
        rcases hexit with hb | hb | hc
        · have hx := congrArg Prod.fst (H.1 (Or.inl hb)).1
          rw [he] at hx
          exact hx
        · have hx := congrArg Prod.fst (H.1 (Or.inr hb)).1
          rw [he] at hx
          exact hx
        · have hx := congrArg Prod.fst (H.2 hc).1
          rw [he] at hx
          exact hx

theorem claim_C8_witness :
    (rNoResponse.best_code, rNoResponse.final_quality)
        = bestSeen ("m", (envNoResponse.evalDetails "m").1) rNoResponse.evaluated ∧
    (rNoResponse.evaluated = [] → rNoResponse.best_code = "m") ∧
    rNoResponse.original_quality = (envNoResponse.evalDetails "m").1 ∧
    (rNoResponse.exitKind = .completedAll → rNoResponse.iterations = 3) ∧
    ((rNoResponse.exitKind = .noResponse ∨ rNoResponse.exitKind = .invalidExtract) →
        rNoResponse.iterations = rNoResponse.evaluated.length + 1 ∧
        rNoResponse.iterations ≤ 3) :=
  claim_C8 envNoResponse 3 "m" rNoResponse rfl (Or.inl rfl)

/-! ## Artifact cache (`cache_manager.py` `HDLCacheManager`,
`MoA_HLS.py` `DualLayerCacheManager`) -/

/-- The two auxiliary languages: `DualLayerCacheManager.__init__` creates
exactly the keys `"cpp"` and `"python"` in `intermediate_codes`, and
`generate_single_path` only ever produces these two. -/
inductive Lang where
  | cpp
  | python
deriving DecidableEq

/-- The dict produced by `generate_single_path` and consumed by
`add_layer_outputs` / `add_layer_outputs_with_intermediate`:
`{code, model, quality_score, path, intermediate, original_quality}`.
Optional fields model dict keys read with `.get` (absent key = `none`). -/
structure HdlOutput where
  code : String
  model : String
  quality_score : ℚ
  path : Option String
  intermediate : Option (Lang × String)
  original_quality : Option ℚ
deriving DecidableEq

/-- A cached HDL entry (`hdl_entry` dict).  `path`, `has_intermediate` and
`intermediate_language` are written only by the dual-layer manager, so they
are optional: plain `add_layer_outputs` entries leave them `none` (key
absent).  The `cached_at` timestamp and `generation_info` payload are
metadata with no bearing on any claim and are omitted. -/
structure HdlEntry where
  code : String
  model : String
  quality_score : ℚ
  layer_idx : ℕ
  path : Option String
  has_intermediate : Option Bool
  intermediate_language : Option Lang
deriving DecidableEq

/-- An `intermediate_entry` dict stored in `intermediate_codes[language]`. -/
structure IntermediateEntry where
  code : String
  language : Lang
  hdl_quality : ℚ
  layer_idx : ℕ
  hdl_reference_idx : ℕ
deriving DecidableEq

/-- `cache_data`: `layer_outputs` is a Python dict keyed by `str(layer_idx)`,
modelled as an insertion-ordered association list keyed by the integer
(Python dicts preserve insertion order, which is what the stable sort of
`get_top_quality_codes` ties ties to); `intermediate_codes` is the
dual-layer extension (empty and untouched for the plain manager).
The persisted-file side (`_save_cache`) is best-effort I/O with no effect
on in-memory state and is not modelled. -/
structure CacheData where
  layer_outputs : List (ℕ × List HdlEntry)
  total_layers : ℕ
  intermediate_codes : Lang → List IntermediateEntry

/-- `HDLCacheManager.__init__` / `DualLayerCacheManager.__init__`: a fresh,
empty cache is built unconditionally per (design, trial); any pre-existing
cache file is deleted. -/
def initCache : CacheData :=
  { layer_outputs := [], total_layers := 0, intermediate_codes := fun _ => [] }

/-- Dict lookup `cache_data["layer_outputs"][str(i)]` (empty if absent). -/
def bucketOf (c : CacheData) (i : ℕ) : List HdlEntry :=
  ((c.layer_outputs.find? (fun kv => decide (kv.1 = i))).map (·.2)).getD []

/-- Keys of `layer_outputs` in insertion order. -/
def cacheKeys (c : CacheData) : List ℕ := c.layer_outputs.map (·.1)

/-- `if layer_key not in self.cache_data["layer_outputs"]:
self.cache_data["layer_outputs"][layer_key] = []` — dict-insert of an empty
bucket at the end when the key is new. -/
def ensureBucket (i : ℕ) (lo : List (ℕ × List HdlEntry)) : List (ℕ × List HdlEntry) :=
  if lo.any (fun kv => decide (kv.1 = i)) then lo else lo ++ [(i, [])]

/-- Append entries to the bucket of key `i` (the key-creation plus the
per-output `append` loop of `add_layer_outputs`). -/
def extendBucket (i : ℕ) (es : List HdlEntry) (lo : List (ℕ × List HdlEntry)) :
    List (ℕ × List HdlEntry) :=
  (ensureBucket i lo).map (fun kv => if kv.1 = i then (kv.1, kv.2 ++ es) else kv)

/-- The `hdl_entry` built by `HDLCacheManager.add_layer_outputs`. -/
def mkBaseEntry (layer_idx : ℕ) (o : HdlOutput) : HdlEntry :=
  { code := o.code, model := o.model, quality_score := o.quality_score,
    layer_idx := layer_idx, path := none, has_intermediate := none,
    intermediate_language := none }

/-- `HDLCacheManager.add_layer_outputs` (`cache_manager.py` lines 61-98):
append-only record of one layer's outputs plus the
`total_layers = max(total_layers, layer_idx + 1)` update.  (The
`metadata["total_hdl_codes"]` recount and `_save_cache` call touch no
claim-relevant state.) -/
def add_layer_outputs (layer_idx : ℕ) (hdl_outputs : List HdlOutput) (c : CacheData) :
    CacheData :=
  { layer_outputs := extendBucket layer_idx (hdl_outputs.map (mkBaseEntry layer_idx)) c.layer_outputs,
    total_layers := max c.total_layers (layer_idx + 1),
    intermediate_codes := c.intermediate_codes }

/-- The `hdl_entry` built by
`DualLayerCacheManager.add_layer_outputs_with_intermediate` for one output
(`MoA_HLS.py` lines 59-67, 73-75, 91). -/
def mkDualEntry (layer_idx : ℕ) (o : HdlOutput) : HdlEntry :=
  { code := o.code, model := o.model, quality_score := o.quality_score,
    layer_idx := layer_idx, path := some (o.path.getD "unknown"),
    has_intermediate := some o.intermediate.isSome,
    intermediate_language := o.intermediate.map (·.1) }

/-- One iteration of the `for hdl_output in hdl_outputs` loop of
`DualLayerCacheManager.add_layer_outputs_with_intermediate`: build the
`hdl_entry`, store the intermediate entry first (its
`hdl_reference_idx` is the bucket length before this HDL entry is
appended, and its `hdl_quality` is
`hdl_output.get("original_quality", hdl_output["quality_score"])`), then
append the HDL entry to the bucket. -/
def addOneWithIntermediate (layer_idx : ℕ) (c : CacheData) (o : HdlOutput) : CacheData :=
  let entry : HdlEntry := mkDualEntry layer_idx o
  let inter := match o.intermediate with
    | none => c.intermediate_codes
    | some (lang, icode) =>
      let ie : IntermediateEntry :=
        { code := icode, language := lang,
          hdl_quality := o.original_quality.getD o.quality_score,
          layer_idx := layer_idx, hdl_reference_idx := (bucketOf c layer_idx).length }
      fun l => if l = lang then c.intermediate_codes l ++ [ie] else c.intermediate_codes l
  { layer_outputs := c.layer_outputs.map
      (fun kv => if kv.1 = layer_idx then (kv.1, kv.2 ++ [entry]) else kv),
    total_layers := c.total_layers,
    intermediate_codes := inter }

/-- `DualLayerCacheManager.add_layer_outputs_with_intermediate`
(`MoA_HLS.py` lines 41-101). -/
def add_layer_outputs_with_intermediate (layer_idx : ℕ) (hdl_outputs : List HdlOutput)
    (c : CacheData) : CacheData :=
  let c0 : CacheData :=
    { layer_outputs := ensureBucket layer_idx c.layer_outputs,
      total_layers := c.total_layers, intermediate_codes := c.intermediate_codes }
  let c1 := hdl_outputs.foldl (addOneWithIntermediate layer_idx) c0
  { c1 with total_layers := max c1.total_layers (layer_idx + 1) }

/-- The layer-ceiling filter of `get_top_quality_codes` /
`get_best_intermediate_code`:
`if up_to_layer is not None and layer_idx > up_to_layer: continue`. -/
def layerWithin (upTo : Option ℕ) (k : ℕ) : Bool :=
  match upTo with
  | none => true
  | some u => decide (k ≤ u)

/-- The `all_codes` pool of `get_top_quality_codes`: buckets concatenated in
dict (= insertion) order, restricted to the layer ceiling. -/
def allCodesUpTo (c : CacheData) (upTo : Option ℕ) : List HdlEntry :=
  ((c.layer_outputs.filter (fun kv => layerWithin upTo kv.1)).map (·.2)).flatten

/-- Stable insertion step for descending quality order: an element is placed
before the first element whose score it weakly exceeds, so equal scores
keep their original relative order — the behaviour of Python's stable
`sorted(..., key=quality, reverse=True)`. -/
def insertDesc (x : HdlEntry) : List HdlEntry → List HdlEntry
  | [] => [x]
  | y :: ys => if y.quality_score ≤ x.quality_score then x :: y :: ys else y :: insertDesc x ys

/-- Stable descending sort by `quality_score` (models
`sorted(all_codes, key=lambda x: x["quality_score"], reverse=True)`;
sortedness, permutation and stability are proved below). -/
def sortByQualityDesc : List HdlEntry → List HdlEntry
  | [] => []
  | x :: xs => insertDesc x (sortByQualityDesc xs)

/-- `HDLCacheManager.get_top_quality_codes` (`cache_manager.py`
lines 100-125). -/
def get_top_quality_codes (n : ℕ) (upTo : Option ℕ) (c : CacheData) : List HdlEntry :=
  (sortByQualityDesc (allCodesUpTo c upTo)).take n

/-- The `{code, language, hdl_quality}` dict returned by
`get_best_intermediate_code`. -/
structure BestIntermediate where
  code : String
  language : Lang
  hdl_quality : ℚ
deriving DecidableEq

/-- `DualLayerCacheManager.get_best_intermediate_code` (`MoA_HLS.py`
lines 103-125); `max(candidates, key=...)` returns the first entry
attaining the maximal `hdl_quality`. -/
def get_best_intermediate_code (language : Lang) (upTo : Option ℕ) (c : CacheData) :
    Option BestIntermediate :=
  match (c.intermediate_codes language).filter (fun e => layerWithin upTo e.layer_idx) with
  | [] => none
  | x :: xs =>
    let best := xs.foldl (fun acc e => if e.hdl_quality > acc.hdl_quality then e else acc) x
    some ⟨best.code, best.language, best.hdl_quality⟩

/-- Well-formedness maintained by every reachable cache: each entry's
`layer_idx` field equals its bucket key (both add operations write the
bucket key into the entry). -/
def CacheWF (c : CacheData) : Prop :=
  ∀ kv ∈ c.layer_outputs, ∀ e ∈ kv.2, e.layer_idx = kv.1

theorem insertDesc_perm (x : HdlEntry) (l : List HdlEntry) :
    List.Perm (insertDesc x l) (x :: l) := by
  induction l with
  | nil => exact List.Perm.refl _
  | cons y ys ih =>
    simp only [insertDesc]
    split
    · exact List.Perm.refl _
    · exact (ih.cons y).trans (List.Perm.swap x y ys)

theorem sortByQualityDesc_perm (l : List HdlEntry) :
    List.Perm (sortByQualityDesc l) l := by
  induction l with
  | nil => exact List.Perm.refl _
  | cons x xs ih => exact (insertDesc_perm x (sortByQualityDesc xs)).trans (ih.cons x)

theorem insertDesc_pairwise (x : HdlEntry) (l : List HdlEntry)
    (h : l.Pairwise (fun a b => b.quality_score ≤ a.quality_score)) :
    (insertDesc x l).Pairwise (fun a b => b.quality_score ≤ a.quality_score) := by
  induction l with
  | nil => simp [insertDesc]
  | cons y ys ih =>
    rcases List.pairwise_cons.mp h with ⟨hy, hys⟩
    simp only [insertDesc]
    split
    · rename_i hc
      refine List.pairwise_cons.mpr ⟨?_, h⟩
      intro z hz
      rcases List.mem_cons.mp hz with hz | hz
      · rw [hz]; exact hc
      · exact le_trans (hy z hz) hc
    · rename_i hc
      refine List.pairwise_cons.mpr ⟨?_, ih hys⟩
      intro z hz
      rcases List.mem_cons.mp ((insertDesc_perm x ys).mem_iff.mp hz) with hz | hz
      · rw [hz]; exact le_of_not_le hc
      · exact hy z hz

theorem sortByQualityDesc_pairwise (l : List HdlEntry) :
    (sortByQualityDesc l).Pairwise (fun a b => b.quality_score ≤ a.quality_score) := by
  induction l with
  | nil => simp [sortByQualityDesc]
  | cons x xs ih => exact insertDesc_pairwise x (sortByQualityDesc xs) ih

theorem insertDesc_filter (x : HdlEntry) (l : List HdlEntry) (q : ℚ) :
    (insertDesc x l).filter (fun e => decide (e.quality_score = q))
      = if x.quality_score = q then x :: l.filter (fun e => decide (e.quality_score = q))
        else l.filter (fun e => decide (e.quality_score = q)) := by
  induction l with
  | nil =>
    by_cases hx : x.quality_score = q <;> simp [insertDesc, hx]
  | cons y ys ih =>
    simp only [insertDesc]
    split
    · rename_i hc
      by_cases hx : x.quality_score = q <;> simp [List.filter_cons, hx]
    · rename_i hc
      by_cases hx : x.quality_score = q
      · have hy : ¬ y.quality_score = q := by
          intro hy
          exact hc (le_of_eq (hx ▸ hy))
        simp [List.filter_cons, hx, hy, ih]
      · by_cases hy : y.quality_score = q <;> simp [List.filter_cons, hx, hy, ih]

theorem sortByQualityDesc_filter (l : List HdlEntry) (q : ℚ) :
    (sortByQualityDesc l).filter (fun e => decide (e.quality_score = q))
      = l.filter (fun e => decide (e.quality_score = q)) := by
  induction l with
  | nil => rfl
  | cons x xs ih =>
    rw [sortByQualityDesc, insertDesc_filter, ih]
    by_cases hx : x.quality_score = q <;> simp [List.filter_cons, hx]

/-- Claim C4: `get_top_quality_codes(n, up_to_layer)` returns only entries
with `layer_idx ≤ up_to_layer` (all layers when the ceiling is absent),
sorted in non-increasing `quality_score` order with ties kept in insertion
order (stable sort over the pool flattened in recording order), and the
result has length ≤ n and ≤ the number of recorded entries within the
ceiling. -/
theorem claim_C4 (c : CacheData) (n : ℕ) (upTo : Option ℕ) (hwf : CacheWF c) :
    (∀ e ∈ get_top_quality_codes n upTo c, ∀ u, upTo = some u → e.layer_idx ≤ u) ∧
    (get_top_quality_codes n upTo c).Pairwise
      (fun a b => b.quality_score ≤ a.quality_score) ∧
    (∀ q, (sortByQualityDesc (allCodesUpTo c upTo)).filter
          (fun e => decide (e.quality_score = q))
        = (allCodesUpTo c upTo).filter (fun e => decide (e.quality_score = q))) ∧
    get_top_quality_codes n upTo c = (sortByQualityDesc (allCodesUpTo c upTo)).take n ∧
    (get_top_quality_codes n upTo c).length ≤ n ∧
    (get_top_quality_codes n upTo c).length ≤ (allCodesUpTo c upTo).length := by
  refine ⟨?_, ?_, fun q => sortByQualityDesc_filter _ q, rfl, ?_, ?_⟩
  · intro e he u hu
    subst hu
    have h1 : e ∈ sortByQualityDesc (allCodesUpTo c (some u)) := List.mem_of_mem_take he
    have h2 : e ∈ allCodesUpTo c (some u) :=
      (sortByQualityDesc_perm (allCodesUpTo c (some u))).mem_iff.mp h1
    rcases List.mem_flatten.mp h2 with ⟨b, hb, heb⟩
    rcases List.mem_map.mp hb with ⟨kv, hkv, rfl⟩
    rcases List.mem_filter.mp hkv with ⟨hkvc, hkvf⟩
    have hle : kv.1 ≤ u := by
      simpa [layerWithin] using hkvf
    rw [hwf kv hkvc e heb]
    exact hle
  · exact (sortByQualityDesc_pairwise (allCodesUpTo c upTo)).sublist
      (List.take_sublist n _)
  · exact List.length_take_le n _
  · calc (get_top_quality_codes n upTo c).length
        ≤ (sortByQualityDesc (allCodesUpTo c upTo)).length := List.length_take_le' n _
      _ = (allCodesUpTo c upTo).length := (sortByQualityDesc_perm _).length_eq

def sampleCache : CacheData :=
  add_layer_outputs 1 [⟨"b", "m2", 1, none, none, none⟩]
    (add_layer_outputs 0 [⟨"a", "m1", 0, none, none, none⟩, ⟨"c", "m1", 0, none, none, none⟩]
      initCache)

theorem claim_C4_witness :
    (∀ e ∈ get_top_quality_codes 2 (some 0) sampleCache,
        ∀ u, (some 0 : Option ℕ) = some u → e.layer_idx ≤ u) ∧
    (get_top_quality_codes 2 (some 0) sampleCache).Pairwise
      (fun a b => b.quality_score ≤ a.quality_score) ∧
    (∀ q, (sortByQualityDesc (allCodesUpTo sampleCache (some 0))).filter
          (fun e => decide (e.quality_score = q))
        = (allCodesUpTo sampleCache (some 0)).filter
            (fun e => decide (e.quality_score = q))) ∧
    get_top_quality_codes 2 (some 0) sampleCache
      = (sortByQualityDesc (allCodesUpTo sampleCache (some 0))).take 2 ∧
    (get_top_quality_codes 2 (some 0) sampleCache).length ≤ 2 ∧
    (get_top_quality_codes 2 (some 0) sampleCache).length
      ≤ (allCodesUpTo sampleCache (some 0)).length :=
  claim_C4 sampleCache 2 (some 0) (by unfold CacheWF; decide)

theorem find?_setBucket (i : ℕ) (es : List HdlEntry) (k : ℕ)
    (lo : List (ℕ × List HdlEntry)) :
    (lo.map (fun kv => if kv.1 = i then (kv.1, kv.2 ++ es) else kv)).find?
        (fun kv => decide (kv.1 = k))
      = (lo.find? (fun kv => decide (kv.1 = k))).map
          (fun kv => if kv.1 = i then (kv.1, kv.2 ++ es) else kv) := by
  rw [List.find?_map]
  have hfg : ((fun kv => decide (kv.1 = k)) ∘
        fun kv : ℕ × List HdlEntry => if kv.1 = i then (kv.1, kv.2 ++ es) else kv)
      = (fun kv : ℕ × List HdlEntry => decide (kv.1 = k)) := by
    funext kv
    by_cases h : kv.1 = i <;> simp [h, Function.comp]
  rw [hfg]

theorem ensureBucket_find?_ne (i k : ℕ) (hk : k ≠ i) (lo : List (ℕ × List HdlEntry)) :
    (ensureBucket i lo).find? (fun kv => decide (kv.1 = k))
      = lo.find? (fun kv => decide (kv.1 = k)) := by
  unfold ensureBucket
  split
  · rfl
  · rw [List.find?_append]
    have h2 : [((i : ℕ), ([] : List HdlEntry))].find? (fun kv => decide (kv.1 = k)) = none := by
      simp [List.find?_cons, Ne.symm hk]
    rw [h2]
    cases lo.find? (fun kv => decide (kv.1 = k)) <;> rfl

theorem ensureBucket_find?_eq (i : ℕ) (lo : List (ℕ × List HdlEntry)) :
    (ensureBucket i lo).find? (fun kv => decide (kv.1 = i))
      = some ((lo.find? (fun kv => decide (kv.1 = i))).getD (i, [])) := by
  unfold ensureBucket
  split
  · rename_i hany
    have hs : (lo.find? (fun kv => decide (kv.1 = i))).isSome := by
      rw [List.find?_isSome]
      exact List.any_eq_true.mp hany
    cases hfind : lo.find? (fun kv => decide (kv.1 = i)) with
    | none => rw [hfind] at hs; cases hs
    | some kv => simp [hfind]
  · rename_i hany
    have hnone : lo.find? (fun kv => decide (kv.1 = i)) = none := by
      rw [List.find?_eq_none]
      intro kv hkv hp
      exact hany (List.any_eq_true.mpr ⟨kv, hkv, hp⟩)
    rw [List.find?_append, hnone]
    simp

theorem ensureBucket_keys (i : ℕ) (lo : List (ℕ × List HdlEntry)) :
    (ensureBucket i lo).map (·.1)
      = if i ∈ lo.map (·.1) then lo.map (·.1) else lo.map (·.1) ++ [i] := by
  unfold ensureBucket
  by_cases hany : lo.any (fun kv => decide (kv.1 = i)) = true
  · rw [if_pos hany, if_pos]
    rcases List.any_eq_true.mp hany with ⟨kv, hkv, hp⟩
    exact List.mem_map.mpr ⟨kv, hkv, of_decide_eq_true hp⟩
  · rw [if_neg hany, if_neg, List.map_append]
    · rfl
    · intro hmem
      rcases List.mem_map.mp hmem with ⟨kv, hkv, hp⟩
      exact hany (List.any_eq_true.mpr ⟨kv, hkv, decide_eq_true hp⟩)

theorem setBucket_keys (i : ℕ) (es : List HdlEntry) (lo : List (ℕ × List HdlEntry)) :
    (lo.map (fun kv => if kv.1 = i then (kv.1, kv.2 ++ es) else kv)).map (·.1)
      = lo.map (·.1) := by
  rw [List.map_map]
  apply List.map_congr_left
  intro kv _
  by_cases h : kv.1 = i <;> simp [h, Function.comp]

theorem mem_ensureBucket_keys (i : ℕ) (lo : List (ℕ × List HdlEntry)) :
    i ∈ (ensureBucket i lo).map (·.1) := by
  unfold ensureBucket
  split
  · rename_i hany
    rcases List.any_eq_true.mp hany with ⟨kv, hkv, hp⟩
    exact List.mem_map.mpr ⟨kv, hkv, of_decide_eq_true hp⟩
  · simp

theorem addOne_bucket_ne (i k : ℕ) (hk : k ≠ i) (c : CacheData) (o : HdlOutput) :
    bucketOf (addOneWithIntermediate i c o) k = bucketOf c k := by
  show ((((c.layer_outputs.map
      (fun kv => if kv.1 = i then (kv.1, kv.2 ++ [mkDualEntry i o]) else kv)).find?
    (fun kv => decide (kv.1 = k))).map (·.2)).getD []) = bucketOf c k
  rw [find?_setBucket]
  cases hfind : c.layer_outputs.find? (fun kv => decide (kv.1 = k)) with
  | none => simp [bucketOf, hfind]
  | some kv =>
    have hp := List.find?_some hfind
    have hkv : kv.1 = k := by simpa using hp
    have hne : ¬ kv.1 = i := by rw [hkv]; exact hk
    simp [bucketOf, hfind, hne]

theorem addOne_bucket_eq (i : ℕ) (c : CacheData) (o : HdlOutput)
    (hkey : i ∈ cacheKeys c) :
    bucketOf (addOneWithIntermediate i c o) i = bucketOf c i ++ [mkDualEntry i o] := by
  show ((((c.layer_outputs.map
      (fun kv => if kv.1 = i then (kv.1, kv.2 ++ [mkDualEntry i o]) else kv)).find?
    (fun kv => decide (kv.1 = i))).map (·.2)).getD []) = _
  rw [find?_setBucket]
  have hs : (c.layer_outputs.find? (fun kv => decide (kv.1 = i))).isSome := by
    rw [List.find?_isSome]
    rcases List.mem_map.mp hkey with ⟨kv, hkv, hfst⟩
    exact ⟨kv, hkv, decide_eq_true hfst⟩
  cases hfind : c.layer_outputs.find? (fun kv => decide (kv.1 = i)) with
  | none => rw [hfind] at hs; cases hs
  | some kv =>
    have hp := List.find?_some hfind
    have hkv : kv.1 = i := by simpa using hp
    simp [bucketOf, hfind, hkv]

theorem addOne_keys (i : ℕ) (c : CacheData) (o : HdlOutput) :
    cacheKeys (addOneWithIntermediate i c o) = cacheKeys c :=
  setBucket_keys i [mkDualEntry i o] c.layer_outputs

theorem addOne_total (i : ℕ) (c : CacheData) (o : HdlOutput) :
    (addOneWithIntermediate i c o).total_layers = c.total_layers := rfl

theorem addOne_inter_append (i : ℕ) (c : CacheData) (o : HdlOutput) (lang : Lang) :
    ∃ suffix, (addOneWithIntermediate i c o).intermediate_codes lang
      = c.intermediate_codes lang ++ suffix := by
  unfold addOneWithIntermediate
  dsimp only
  cases ho : o.intermediate with
  | none => exact ⟨[], by simp⟩
  | some p =>
    obtain ⟨lang0, icode⟩ := p
    dsimp only
    split
    · exact ⟨_, rfl⟩
    · exact ⟨[], by simp⟩

theorem foldAdd_props (i : ℕ) (outs : List HdlOutput) :
    ∀ c0 : CacheData, i ∈ cacheKeys c0 →
      (∀ k, k ≠ i → bucketOf (outs.foldl (addOneWithIntermediate i) c0) k = bucketOf c0 k) ∧
      bucketOf (outs.foldl (addOneWithIntermediate i) c0) i
        = bucketOf c0 i ++ outs.map (mkDualEntry i) ∧
      cacheKeys (outs.foldl (addOneWithIntermediate i) c0) = cacheKeys c0 ∧
      (outs.foldl (addOneWithIntermediate i) c0).total_layers = c0.total_layers ∧
      (∀ lang, ∃ suffix, (outs.foldl (addOneWithIntermediate i) c0).intermediate_codes lang
        = c0.intermediate_codes lang ++ suffix) := by
  induction outs with
  | nil =>
    intro c0 _hkey
    exact ⟨fun k _ => rfl, by simp, rfl, rfl, fun lang => ⟨[], by simp⟩⟩
  | cons o os ih =>
    intro c0 hkey
    have hkey1 : i ∈ cacheKeys (addOneWithIntermediate i c0 o) := by
      rw [addOne_keys]; exact hkey
    obtain ⟨h1, h2, h3, h4, h5⟩ := ih (addOneWithIntermediate i c0 o) hkey1
    refine ⟨?_, ?_, ?_, ?_, ?_⟩
    · intro k hk
      simp only [List.foldl_cons]
      rw [h1 k hk, addOne_bucket_ne i k hk]
    · simp only [List.foldl_cons, List.map_cons]
      rw [h2, addOne_bucket_eq i c0 o hkey, List.append_assoc]
      rfl
    · simp only [List.foldl_cons]
      rw [h3, addOne_keys]
    · simp only [List.foldl_cons]
      rw [h4, addOne_total]
    · intro lang
      simp only [List.foldl_cons]
      obtain ⟨s1, hs1⟩ := h5 lang
      obtain ⟨s0, hs0⟩ := addOne_inter_append i c0 o lang
      exact ⟨s0 ++ s1, by rw [hs1, hs0, List.append_assoc]⟩

theorem ensureBucket_cache_bucket_ne (i k : ℕ) (hk : k ≠ i) (c : CacheData) :
    bucketOf ⟨ensureBucket i c.layer_outputs, c.total_layers, c.intermediate_codes⟩ k
      = bucketOf c k := by
  show ((((ensureBucket i c.layer_outputs).find? (fun kv => decide (kv.1 = k))).map
    (·.2)).getD []) = bucketOf c k
  rw [ensureBucket_find?_ne i k hk]
  rfl

theorem ensureBucket_cache_bucket_eq (i : ℕ) (c : CacheData) :
    bucketOf ⟨ensureBucket i c.layer_outputs, c.total_layers, c.intermediate_codes⟩ i
      = bucketOf c i := by
  show ((((ensureBucket i c.layer_outputs).find? (fun kv => decide (kv.1 = i))).map
    (·.2)).getD []) = bucketOf c i
  rw [ensureBucket_find?_eq]
  cases hfind : c.layer_outputs.find? (fun kv => decide (kv.1 = i)) with
  | none => simp [bucketOf, hfind]
  | some kv => simp [bucketOf, hfind]

/-- Claim C9: both cache record operations — `add_layer_outputs` and
`add_layer_outputs_with_intermediate` — are append-only: after recording a
list of candidates for layer `i`, every other bucket is untouched, the
bucket for layer `i` equals its previous contents followed by the new
entries in order (no deduplication or merging), the key sequence is
preserved (with `i` appended at the end when new), `total_layers` becomes
`max(total_layers, i+1)` (for the dual-layer variant the per-language
auxiliary lists are also only appended to), and each trial starts from a
fresh empty cache. -/
theorem claim_C9 (c : CacheData) (i : ℕ) (outs : List HdlOutput) :
    (∀ k, k ≠ i → bucketOf (add_layer_outputs i outs c) k = bucketOf c k) ∧
    bucketOf (add_layer_outputs i outs c) i = bucketOf c i ++ outs.map (mkBaseEntry i) ∧
    cacheKeys (add_layer_outputs i outs c)
      = (if i ∈ cacheKeys c then cacheKeys c else cacheKeys c ++ [i]) ∧
    (add_layer_outputs i outs c).total_layers = max c.total_layers (i + 1) ∧
    initCache.layer_outputs = [] ∧ initCache.total_layers = 0 ∧
    (∀ k, k ≠ i →
      bucketOf (add_layer_outputs_with_intermediate i outs c) k = bucketOf c k) ∧
    bucketOf (add_layer_outputs_with_intermediate i outs c) i
      = bucketOf c i ++ outs.map (mkDualEntry i) ∧
    cacheKeys (add_layer_outputs_with_intermediate i outs c)
      = (if i ∈ cacheKeys c then cacheKeys c else cacheKeys c ++ [i]) ∧
    (add_layer_outputs_with_intermediate i outs c).total_layers
      = max c.total_layers (i + 1) ∧
    (∀ lang, ∃ suffix,
      (add_layer_outputs_with_intermediate i outs c).intermediate_codes lang
        = c.intermediate_codes lang ++ suffix) := by
  have F := foldAdd_props i outs
    ⟨ensureBucket i c.layer_outputs, c.total_layers, c.intermediate_codes⟩
    (mem_ensureBucket_keys i c.layer_outputs)
  refine ⟨?_, ?_, ?_, rfl, rfl, rfl, ?_, ?_, ?_, ?_, ?_⟩
  · intro k hk
    show ((((extendBucket i (outs.map (mkBaseEntry i)) c.layer_outputs).find?
      (fun kv => decide (kv.1 = k))).map (·.2)).getD []) = bucketOf c k
    unfold extendBucket
    rw [find?_setBucket, ensureBucket_find?_ne i k hk]
    cases hfind : c.layer_outputs.find? (fun kv => decide (kv.1 = k)) with
    | none => simp [bucketOf, hfind]
    | some kv =>
      have hp := List.find?_some hfind
      have hkv : kv.1 = k := by simpa using hp
      have hne : ¬ kv.1 = i := by rw [hkv]; exact hk
      simp [bucketOf, hfind, hne]
  · show ((((extendBucket i (outs.map (mkBaseEntry i)) c.layer_outputs).find?
      (fun kv => decide (kv.1 = i))).map (·.2)).getD []) = _
    unfold extendBucket
    rw [find?_setBucket, ensureBucket_find?_eq]
    cases hfind : c.layer_outputs.find? (fun kv => decide (kv.1 = i)) with
    | none => simp [bucketOf, hfind]
    | some kv =>
      have hp := List.find?_some hfind
      have hkv : kv.1 = i := by simpa using hp
      simp [bucketOf, hfind, hkv]
  · show (extendBucket i (outs.map (mkBaseEntry i)) c.layer_outputs).map (·.1) = _
    unfold extendBucket
    rw [setBucket_keys, ensureBucket_keys]
    rfl
  ·
    intro k hk
    have e1 : bucketOf (add_layer_outputs_with_intermediate i outs c) k
        = bucketOf (outs.foldl (addOneWithIntermediate i)
            ⟨ensureBucket i c.layer_outputs, c.total_layers, c.intermediate_codes⟩) k := rfl
    rw [e1, F.1 k hk, ensureBucket_cache_bucket_ne i k hk]
  ·
    have e1 : bucketOf (add_layer_outputs_with_intermediate i outs c) i
        = bucketOf (outs.foldl (addOneWithIntermediate i)
            ⟨ensureBucket i c.layer_outputs, c.total_layers, c.intermediate_codes⟩) i := rfl
    rw [e1, F.2.1, ensureBucket_cache_bucket_eq i c]
  ·
    have e1 : cacheKeys (add_layer_outputs_with_intermediate i outs c)
        = cacheKeys (outs.foldl (addOneWithIntermediate i)
            ⟨ensureBucket i c.layer_outputs, c.total_layers, c.intermediate_codes⟩) := rfl
    rw [e1, F.2.2.1]
    exact ensureBucket_keys i c.layer_outputs
  ·
    have e1 : (add_layer_outputs_with_intermediate i outs c).total_layers
        = max (outs.foldl (addOneWithIntermediate i)
            ⟨ensureBucket i c.layer_outputs, c.total_layers,
              c.intermediate_codes⟩).total_layers (i + 1) := rfl
    rw [e1, F.2.2.2.1]
  ·
    intro lang
    obtain ⟨s, hs⟩ := F.2.2.2.2 lang
    have e1 : (add_layer_outputs_with_intermediate i outs c).intermediate_codes lang
        = (outs.foldl (addOneWithIntermediate i)
            ⟨ensureBucket i c.layer_outputs, c.total_layers,
              c.intermediate_codes⟩).intermediate_codes lang := rfl
    exact ⟨s, e1.trans hs⟩

def sampleOut2 : HdlOutput := ⟨"module n", "m2", 1, some "direct", none, some 1⟩

theorem claim_C9_witness :
    bucketOf (add_layer_outputs 1 [sampleOut2] sampleCache) 0 = bucketOf sampleCache 0 ∧
    bucketOf (add_layer_outputs 1 [sampleOut2] sampleCache) 1
      = bucketOf sampleCache 1 ++ [sampleOut2].map (mkBaseEntry 1) ∧
    cacheKeys (add_layer_outputs 1 [sampleOut2] sampleCache)
      = (if 1 ∈ cacheKeys sampleCache then cacheKeys sampleCache
         else cacheKeys sampleCache ++ [1]) ∧
    (add_layer_outputs 1 [sampleOut2] sampleCache).total_layers
      = max sampleCache.total_layers 2 ∧
    initCache.layer_outputs = [] ∧ initCache.total_layers = 0 ∧
    bucketOf (add_layer_outputs_with_intermediate 1 [sampleOut2] sampleCache) 0
      = bucketOf sampleCache 0 ∧
    bucketOf (add_layer_outputs_with_intermediate 1 [sampleOut2] sampleCache) 1
      = bucketOf sampleCache 1 ++ [sampleOut2].map (mkDualEntry 1) ∧
    cacheKeys (add_layer_outputs_with_intermediate 1 [sampleOut2] sampleCache)
      = (if 1 ∈ cacheKeys sampleCache then cacheKeys sampleCache
         else cacheKeys sampleCache ++ [1]) ∧
    (add_layer_outputs_with_intermediate 1 [sampleOut2] sampleCache).total_layers
      = max sampleCache.total_layers 2 ∧
    (∃ suffix,
      (add_layer_outputs_with_intermediate 1 [sampleOut2] sampleCache).intermediate_codes
          Lang.cpp
        = sampleCache.intermediate_codes Lang.cpp ++ suffix) :=
  ⟨(claim_C9 sampleCache 1 [sampleOut2]).1 0 (by decide),
   (claim_C9 sampleCache 1 [sampleOut2]).2.1,
   (claim_C9 sampleCache 1 [sampleOut2]).2.2.1,
   (claim_C9 sampleCache 1 [sampleOut2]).2.2.2.1,
   (claim_C9 sampleCache 1 [sampleOut2]).2.2.2.2.1,
   (claim_C9 sampleCache 1 [sampleOut2]).2.2.2.2.2.1,
   (claim_C9 sampleCache 1 [sampleOut2]).2.2.2.2.2.2.1 0 (by decide),
   (claim_C9 sampleCache 1 [sampleOut2]).2.2.2.2.2.2.2.1,
   (claim_C9 sampleCache 1 [sampleOut2]).2.2.2.2.2.2.2.2.1,
   (claim_C9 sampleCache 1 [sampleOut2]).2.2.2.2.2.2.2.2.2.1,
   (claim_C9 sampleCache 1 [sampleOut2]).2.2.2.2.2.2.2.2.2.2 Lang.cpp⟩

theorem foldlBest_spec (x : IntermediateEntry) (xs : List IntermediateEntry) :
    (xs.foldl (fun acc e => if e.hdl_quality > acc.hdl_quality then e else acc) x) ∈ x :: xs ∧
    ∀ e ∈ x :: xs, e.hdl_quality ≤
      (xs.foldl (fun acc e => if e.hdl_quality > acc.hdl_quality then e else acc) x).hdl_quality := by
  induction xs generalizing x with
  | nil =>
    exact ⟨List.mem_singleton.mpr rfl, fun e he => by
      rw [List.mem_singleton.mp he]; exact le_refl _⟩
  | cons y ys ih =>
    rw [List.foldl_cons]
    obtain ⟨hmem, hmax⟩ := ih (if y.hdl_quality > x.hdl_quality then y else x)
    have hxy : (if y.hdl_quality > x.hdl_quality then y else x) ∈ x :: y :: ys := by
      split
      · exact List.mem_cons_of_mem x (List.mem_cons_self y ys)
      · exact List.mem_cons_self x _
    constructor
    · rcases List.mem_cons.mp hmem with h | h
      · rw [h]; exact hxy
      · exact List.mem_cons_of_mem x (List.mem_cons_of_mem y h)
    · have hgex : x.hdl_quality ≤ (if y.hdl_quality > x.hdl_quality then y else x).hdl_quality := by
        split
        · rename_i hgt; exact le_of_lt hgt
        · exact le_refl _
      have hgey : y.hdl_quality ≤ (if y.hdl_quality > x.hdl_quality then y else x).hdl_quality := by
        split
        · exact le_refl _
        · rename_i hgt; exact le_of_not_lt hgt
      intro e he
      rcases List.mem_cons.mp he with h | h
      · rw [h]
        exact le_trans hgex (hmax _ (List.mem_cons_self _ _))
      · rcases List.mem_cons.mp h with h | h
        · rw [h]
          exact le_trans hgey (hmax _ (List.mem_cons_self _ _))
        · exact hmax e (List.mem_cons_of_mem _ h)

/-- Claim C7: `get_best_intermediate_code(language, up_to_layer)` returns
`None` exactly when no stored auxiliary entry of that language lies within
the layer ceiling, and otherwise an entry whose recorded `hdl_quality` is
maximal among the matching entries; and the `hdl_quality` stored for an
auxiliary entry whose owning candidate carries an `original_quality` is
that pre-repair score, not the (possibly repair-improved)
`quality_score`. -/
theorem claim_C7 (c : CacheData) (language : Lang) (upTo : Option ℕ) :
    (get_best_intermediate_code language upTo c = none ↔
      (c.intermediate_codes language).filter (fun e => layerWithin upTo e.layer_idx) = []) ∧
    (∀ b, get_best_intermediate_code language upTo c = some b →
      ∃ e ∈ (c.intermediate_codes language).filter (fun e => layerWithin upTo e.layer_idx),
        b = ⟨e.code, e.language, e.hdl_quality⟩ ∧
        ∀ e' ∈ (c.intermediate_codes language).filter (fun e => layerWithin upTo e.layer_idx),
          e'.hdl_quality ≤ e.hdl_quality) ∧
    (∀ (c₀ : CacheData) (i : ℕ) (o : HdlOutput) (lang : Lang) (icode : String) (q : ℚ),
      o.intermediate = some (lang, icode) → o.original_quality = some q →
      (addOneWithIntermediate i c₀ o).intermediate_codes lang
        = c₀.intermediate_codes lang ++
          [⟨icode, lang, q, i, (bucketOf c₀ i).length⟩]) := by
  refine ⟨?_, ?_, ?_⟩
  · unfold get_best_intermediate_code
    cases hf : (c.intermediate_codes language).filter (fun e => layerWithin upTo e.layer_idx) with
    | nil => simp
    | cons x xs => simp
  · intro b hb
    unfold get_best_intermediate_code at hb
    revert hb
    cases hf : (c.intermediate_codes language).filter (fun e => layerWithin upTo e.layer_idx) with
    | nil => intro hb; cases hb
    | cons x xs =>
      intro hb
      injection hb with hb
      obtain ⟨hmem, hmax⟩ := foldlBest_spec x xs
      refine ⟨xs.foldl (fun acc e => if e.hdl_quality > acc.hdl_quality then e else acc) x,
        ?_, ?_, ?_⟩
      · exact hmem
      · exact hb.symm
      · intro e' he'
        exact hmax e' he'
  · intro c₀ i o lang icode q h1 h2
    unfold addOneWithIntermediate
    simp [h1, h2]

def sampleOut : HdlOutput := ⟨"module m", "mdl", 1, some "cpp_chain", some (.cpp, "int x;"), some 0⟩

def sampleDualCache : CacheData := add_layer_outputs_with_intermediate 0 [sampleOut] initCache

theorem claim_C7_witness :
    (∃ e ∈ (sampleDualCache.intermediate_codes Lang.cpp).filter
        (fun e => layerWithin none e.layer_idx),
      (⟨"int x;", Lang.cpp, 0⟩ : BestIntermediate) = ⟨e.code, e.language, e.hdl_quality⟩ ∧
      ∀ e' ∈ (sampleDualCache.intermediate_codes Lang.cpp).filter
          (fun e => layerWithin none e.layer_idx),
        e'.hdl_quality ≤ e.hdl_quality) ∧
    (addOneWithIntermediate 0 initCache sampleOut).intermediate_codes Lang.cpp
      = initCache.intermediate_codes Lang.cpp ++ [⟨"int x;", Lang.cpp, 0, 0, 0⟩] :=
  ⟨(claim_C7 sampleDualCache Lang.cpp none).2.1 ⟨"int x;", Lang.cpp, 0⟩ rfl,
   (claim_C7 sampleDualCache Lang.cpp none).2.2 initCache 0 sampleOut Lang.cpp "int x;" 0 rfl rfl⟩

/-! ## Layer orchestration (`MoA_HLS.py`, `MoAHLSGenerator.generate_trial`),
with quality caching enabled (the configuration under which candidates are
recorded). -/

/-- The `for layer_idx in range(self.num_layers)` loop of `generate_trial`
(`MoA_HLS.py` lines 1065-1110), quality-caching branch.  `gen` abstracts
`generate_multipath_layer` (LLM round trips), receiving the layer index,
the cache manager and the forward-feed `previous_codes` the source
computes; the trace (second component) is ghost instrumentation recording
each executed layer with its outputs.  The third component is
`perfect_code_found`: when early stopping is enabled and a recorded layer
contains an output with `quality_score == 1.0`, the source returns that
output's code immediately, before any further layer runs. -/
def runLayers (gen : ℕ → CacheData → Option (List HdlEntry) → List HdlOutput)
    (nSelect : ℕ) (earlyStop : Bool) :
    ℕ → ℕ → CacheData → List (ℕ × List HdlOutput) →
    CacheData × List (ℕ × List HdlOutput) × Option String
  | 0, _idx, c, tr => (c, tr, none)
  | remaining + 1, idx, c, tr =>
    let previous : Option (List HdlEntry) :=
      if idx = 0 then none else some (get_top_quality_codes nSelect (some (idx - 1)) c)
    let outs := gen idx c previous
    let tr' := tr ++ [(idx, outs)]
    if outs.isEmpty then
      runLayers gen nSelect earlyStop remaining (idx + 1) c tr'
    else
      let c' := add_layer_outputs_with_intermediate idx outs c
      if earlyStop then
        match outs.find? (fun o => decide (o.quality_score = 1)) with
        | some o => (c', tr', some o.code)
        | none => runLayers gen nSelect earlyStop remaining (idx + 1) c' tr'
      else runLayers gen nSelect earlyStop remaining (idx + 1) c' tr'

/-- `MoAHLSGenerator.generate_trial` (caching enabled): run the layers from
a fresh cache; on early stop return the perfect code (final aggregation
phase skipped — third component `false`); otherwise run the final
aggregation phase, abstracted as `agg` over the final cache (it performs
top-k retrieval, LLM synthesis with retry, validation, optional repair and
best-cached fallback — none of which executes on the early-stop path). -/
def generate_trial (gen : ℕ → CacheData → Option (List HdlEntry) → List HdlOutput)
    (agg : CacheData → Option String) (nSelect numLayers : ℕ) (earlyStop : Bool) :
    Option String × List (ℕ × List HdlOutput) × Bool :=
  let r := runLayers gen nSelect earlyStop numLayers 0 initCache []
  match r.2.2 with
  | some code => (some code, r.2.1, false)
  | none => (agg r.1, r.2.1, true)

theorem runLayers_earlyStop (gen : ℕ → CacheData → Option (List HdlEntry) → List HdlOutput)
    (nSelect : ℕ) :
    ∀ remaining idx c tr,
      (∀ p ∈ tr, ∀ o ∈ p.2, o.quality_score ≠ 1) →
      tr.map (·.1) = List.range idx →
      ∀ i outs, (i, outs) ∈ (runLayers gen nSelect true remaining idx c tr).2.1 →
      (∃ o ∈ outs, o.quality_score = 1) →
      (∃ o, outs.find? (fun o => decide (o.quality_score = 1)) = some o ∧
        (runLayers gen nSelect true remaining idx c tr).2.2 = some o.code) ∧
      ((runLayers gen nSelect true remaining idx c tr).2.1).map (·.1) = List.range (i + 1) := by
  intro remaining
  induction remaining with
  | zero =>
    intro idx c tr hclean _hkeys i outs htr hperf
    rcases hperf with ⟨o, ho, h1⟩
    exact absurd h1 (hclean (i, outs) htr o ho)
  | succ n ih =>
    intro idx c tr hclean hkeys i outs htr hperf
    simp only [runLayers] at htr ⊢
    by_cases hemp : (gen idx c (if idx = 0 then none
        else some (get_top_quality_codes nSelect (some (idx - 1)) c))).isEmpty = true
    · rw [if_pos hemp] at htr ⊢
      refine ih (idx + 1) c (tr ++ [(idx, _)]) ?_ ?_ i outs htr hperf
      · intro p hp o ho
        rcases List.mem_append.mp hp with hp | hp
        · exact hclean p hp o ho
        · rw [List.mem_singleton.mp hp] at ho
          rw [List.isEmpty_iff.mp hemp] at ho
          cases ho
      · rw [List.map_append, hkeys, List.range_succ]
        rfl
    · rw [if_neg hemp] at htr ⊢
      rw [if_pos trivial] at htr ⊢
      revert htr
      cases hfind : (gen idx c (if idx = 0 then none
          else some (get_top_quality_codes nSelect (some (idx - 1)) c))).find?
          (fun o => decide (o.quality_score = 1)) with
      | some o =>
        intro htr
        rcases List.mem_append.mp htr with htr | htr
        · rcases hperf with ⟨o', ho', h1⟩
          exact absurd h1 (hclean (i, outs) htr o' ho')
        · have hio := List.mem_singleton.mp htr
          have hi : i = idx := congrArg Prod.fst hio
          have houts : outs = gen idx c (if idx = 0 then none
              else some (get_top_quality_codes nSelect (some (idx - 1)) c)) :=
            congrArg Prod.snd hio
          subst hi
          refine ⟨⟨o, houts ▸ hfind, rfl⟩, ?_⟩
          rw [List.map_append, hkeys, List.range_succ]
          rfl
      | none =>
        intro htr
        refine ih (idx + 1) _ (tr ++ [(idx, _)]) ?_ ?_ i outs htr hperf
        · intro p hp o' ho'
          rcases List.mem_append.mp hp with hp | hp
          · exact hclean p hp o' ho'
          · rw [List.mem_singleton.mp hp] at ho'
            have := List.find?_eq_none.mp hfind o' ho'
            simpa using this
        · rw [List.map_append, hkeys, List.range_succ]
          rfl

/-- Claim C5: with early stopping (and quality caching) enabled, if some
executed layer records a candidate whose `quality_score` equals the maximal
score 1.0, then `generate_trial` returns that layer's first such
candidate's code immediately: the trace stops at that layer (no later
layer executes) and the final aggregation phase never runs, so no
candidate produced after that layer is ever returned for the trial. -/
theorem claim_C5 (gen : ℕ → CacheData → Option (List HdlEntry) → List HdlOutput)
    (agg : CacheData → Option String) (nSelect numLayers : ℕ) (i : ℕ)
    (outs : List HdlOutput)
    (htr : (i, outs) ∈ (generate_trial gen agg nSelect numLayers true).2.1)
    (hperf : ∃ o ∈ outs, o.quality_score = 1) :
    (generate_trial gen agg nSelect numLayers true).2.2 = false ∧
    (∃ o, outs.find? (fun o => decide (o.quality_score = 1)) = some o ∧
      (generate_trial gen agg nSelect numLayers true).1 = some o.code) ∧
    ((generate_trial gen agg nSelect numLayers true).2.1).map (·.1) = List.range (i + 1) := by
  have htr' : (i, outs) ∈ (runLayers gen nSelect true numLayers 0 initCache []).2.1 := by
    revert htr
    unfold generate_trial
    cases hes : (runLayers gen nSelect true numLayers 0 initCache []).2.2 with
    | some code => intro htr; simpa [hes] using htr
    | none => intro htr; simpa [hes] using htr
  have H := runLayers_earlyStop gen nSelect numLayers 0 initCache []
    (by intro p hp; cases hp) rfl i outs htr' hperf
  rcases H with ⟨⟨o, hfind, hes⟩, hkeys⟩
  refine ⟨?_, ⟨o, hfind, ?_⟩, ?_⟩ <;> simp [generate_trial, hes, hkeys]

def perfectOut : HdlOutput := ⟨"module p", "mdl", 1, some "direct", none, some 1⟩

theorem claim_C5_witness :
    (generate_trial (fun _ _ _ => [perfectOut]) (fun _ => none) 3 2 true).2.2 = false ∧
    (∃ o, [perfectOut].find? (fun o => decide (o.quality_score = 1)) = some o ∧
      (generate_trial (fun _ _ _ => [perfectOut]) (fun _ => none) 3 2 true).1 = some o.code) ∧
    ((generate_trial (fun _ _ _ => [perfectOut]) (fun _ => none) 3 2 true).2.1).map (·.1)
      = List.range 1 :=
  claim_C5 (fun _ _ _ => [perfectOut]) (fun _ => none) 3 2 0 [perfectOut]
    (by decide) ⟨perfectOut, by decide, by decide⟩

/-! ## Quality evaluator (`quality_evaluator.py`)

The text analyses of `_severity_weighted_evaluation` and
`_fallback_evaluation` are built from a handful of fixed regular
expressions.  Each one is embedded below as a dedicated scanner that
realizes that concrete pattern's Python `re` semantics (leftmost,
non-overlapping matches; greedy runs — a greedy `\w+`/`\d+` before a
delimiter can only match the maximal run, because giving back characters
leaves a word/digit character where the delimiter is required; lazy
`[^}]*?` stops at the earliest terminator).  Characters are ASCII, as in
the HDL corpus the evaluator processes. -/

/-- Python `\w` (ASCII range). -/
def isWordChar (c : Char) : Bool := c.isAlphanum || c = '_'

/-- Python `\s` (ASCII range), also the character set stripped by
`str.strip()`. -/
def isSpaceChar (c : Char) : Bool :=
  c = ' ' || c = '\t' || c = '\n' || c = '\r' || c = '\x0b' || c = '\x0c'

/-- Case-insensitive literal prefix test. -/
def ciIsPrefixOf : List Char → List Char → Bool
  | [], _ => true
  | _ :: _, [] => false
  | p :: ps, c :: cs => (c.toLower = p.toLower) && ciIsPrefixOf ps cs

/-- Python substring test `needle in hay`. -/
def containsSub (needle : List Char) : List Char → Bool
  | [] => needle.isEmpty
  | c :: t => needle.isPrefixOf (c :: t) || containsSub needle t

/-- Python `str.count`: non-overlapping occurrence count (fuelled by the
haystack length; every step consumes at least one character for the
non-empty needles used here). -/
def countSubAux (needle : List Char) : ℕ → List Char → ℕ
  | 0, _ => 0
  | _ + 1, [] => 0
  | fuel + 1, c :: t =>
    if needle.isPrefixOf (c :: t) then
      1 + countSubAux needle fuel ((c :: t).drop needle.length)
    else countSubAux needle fuel t

def countSub (needle hay : List Char) : ℕ := countSubAux needle hay.length hay

/-- `re.findall` driver: scan left to right, on a match emit the capture and
resume after the match, otherwise advance one position (fuelled by the
input length; every used matcher consumes at least one character). -/
def scanAux {α : Type} (tryAt : List Char → Option (α × List Char)) :
    ℕ → List Char → List α
  | 0, _ => []
  | _ + 1, [] => []
  | fuel + 1, c :: t =>
    match tryAt (c :: t) with
    | some (a, rest) => a :: scanAux tryAt fuel rest
    | none => scanAux tryAt fuel t

/-- `re.search` driver: first match wins. -/
def searchAux {α : Type} (tryAt : List Char → Option (α × List Char)) :
    ℕ → List Char → Option α
  | 0, _ => none
  | _ + 1, [] => none
  | fuel + 1, c :: t =>
    match tryAt (c :: t) with
    | some (a, _) => some a
    | none => searchAux tryAt fuel t

/-- Matcher for `(\w+)\s*<=` at the current position: maximal word run,
optional whitespace, then the literal `<=`. -/
def tryAssignTarget (s : List Char) : Option (List Char × List Char) :=
  let w := s.takeWhile isWordChar
  if w.isEmpty then none
  else
    match (s.dropWhile isWordChar).dropWhile isSpaceChar with
    | '<' :: '=' :: rest => some (w, rest)
    | _ => none

/-- `re.findall(r'(\w+)\s*<=', s)`. -/
def findAssignTargets (s : List Char) : List (List Char) :=
  scanAux tryAssignTarget s.length s

/-- Matcher for the interpolated `f'{signal}\s*<='` at the current
position (the signal text is a `\w+` capture, hence literal in the
pattern; no word-boundary anchor, exactly as in the source). -/
def tryLiteralAssign (sig : List Char) (s : List Char) : Option (Unit × List Char) :=
  if sig.isPrefixOf s then
    match (s.drop sig.length).dropWhile isSpaceChar with
    | '<' :: '=' :: rest => some ((), rest)
    | _ => none
  else none

/-- `re.search(f'{signal}\s*<=', s)` as a Boolean. -/
def containsAssignTo (sig : List Char) (s : List Char) : Bool :=
  (searchAux (tryLiteralAssign sig) s.length s).isSome

/-- The lazy `[^}]*?end` tail (DOTALL, IGNORECASE): consume characters other
than `\x7d` up to the earliest case-insensitive `end`; fail on `\x7d` or
exhaustion.  Returns (consumed text incl. `end`, rest). -/
def lazyUntilEnd : ℕ → List Char → Option (List Char × List Char)
  | 0, _ => none
  | fuel + 1, s =>
    if ciIsPrefixOf ['e', 'n', 'd'] s then some (s.take 3, s.drop 3)
    else
      match s with
      | [] => none
      | '\x7d' :: _ => none
      | c :: t =>
        match lazyUntilEnd fuel t with
        | some (mid, rest) => some (c :: mid, rest)
        | none => none

/-- Matcher for `always\s*@[^}]*?end` (DOTALL | IGNORECASE) at the current
position. -/
def tryAlwaysBlock (s : List Char) : Option (List Char × List Char) :=
  if ciIsPrefixOf "always".toList s then
    let afterA := s.drop 6
    let sp := afterA.takeWhile isSpaceChar
    match afterA.dropWhile isSpaceChar with
    | '@' :: rest2 =>
      match lazyUntilEnd (rest2.length + 1) rest2 with
      | some (mid, rest3) => some (s.take 6 ++ sp ++ '@' :: mid, rest3)
      | none => none
    | _ => none
  else none

/-- `re.findall(r'always\s*@[^}]*?end', code, re.DOTALL | re.IGNORECASE)`. -/
def findAlwaysBlocks (s : List Char) : List (List Char) :=
  scanAux tryAlwaysBlock s.length s

/-- Matcher for `if\s*\(\s*\w*[Rr][Ss][Tt]\w*\s*\)` at the current position:
the word run after the parenthesis must contain `rst` case-insensitively
and be followed by optional whitespace and `)`. -/
def tryResetIf (s : List Char) : Option (Unit × List Char) :=
  match s with
  | 'i' :: 'f' :: rest1 =>
    match rest1.dropWhile isSpaceChar with
    | '(' :: rest3 =>
      let rest4 := rest3.dropWhile isSpaceChar
      let w := rest4.takeWhile isWordChar
      if containsSub ['r', 's', 't'] (w.map Char.toLower) then
        match (rest4.dropWhile isWordChar).dropWhile isSpaceChar with
        | ')' :: rest7 => some ((), rest7)
        | _ => none
      else none
    | _ => none
  | _ => none

/-- `re.search(r'if\s*\(\s*\w*[Rr][Ss][Tt]\w*\s*\)', block)` as a Boolean. -/
def hasResetGuard (s : List Char) : Bool :=
  (searchAux tryResetIf s.length s).isSome

/-- Matcher for the capturing `if\s*\(\s*(!?\w*[Rr][Ss][Tt]\w*)\s*\)`: like
`tryResetIf` but capturing the optional `!` plus the word run. -/
def tryResetCapture (s : List Char) : Option (List Char × List Char) :=
  match s with
  | 'i' :: 'f' :: rest1 =>
    match rest1.dropWhile isSpaceChar with
    | '(' :: rest3 =>
      let rest4 := rest3.dropWhile isSpaceChar
      let pre : List Char := if rest4.head? = some '!' then ['!'] else []
      let rest5 := if rest4.head? = some '!' then rest4.drop 1 else rest4
      let w := rest5.takeWhile isWordChar
      if containsSub ['r', 's', 't'] (w.map Char.toLower) then
        match (rest5.dropWhile isWordChar).dropWhile isSpaceChar with
        | ')' :: rest7 => some (pre ++ w, rest7)
        | _ => none
      else none
    | _ => none
  | _ => none

/-- `re.findall(r'if\s*\(\s*(!?\w*[Rr][Ss][Tt]\w*)\s*\)', code)`. -/
def findResetPatterns (s : List Char) : List (List Char) :=
  scanAux tryResetCapture s.length s

/-- Matcher for the back-reference pattern `(\w+)\s*<=\s*\1\s*;` at the
current position: a word run assigned its own literal text. -/
def trySelfAssign (s : List Char) : Option (Unit × List Char) :=
  let w := s.takeWhile isWordChar
  if w.isEmpty then none
  else
    match (s.dropWhile isWordChar).dropWhile isSpaceChar with
    | '<' :: '=' :: rest3 =>
      let rest4 := rest3.dropWhile isSpaceChar
      if w.isPrefixOf rest4 then
        match (rest4.drop w.length).dropWhile isSpaceChar with
        | ';' :: r => some ((), r)
        | _ => none
      else none
    | _ => none

/-- `re.search(r'(\w+)\s*<=\s*\1\s*;', line)` as a Boolean. -/
def lineHasSelfAssign (line : List Char) : Bool :=
  (searchAux trySelfAssign line.length line).isSome

/-- Matcher for `always\s*@\s*\([^)]+\)` (IGNORECASE) at the current
position: the sensitivity-list header up to the first `)`. -/
def tryAlwaysHeader (s : List Char) : Option (List Char × List Char) :=
  if ciIsPrefixOf "always".toList s then
    let afterA := s.drop 6
    let sp1 := afterA.takeWhile isSpaceChar
    match afterA.dropWhile isSpaceChar with
    | '@' :: rest2 =>
      let sp2 := rest2.takeWhile isSpaceChar
      match rest2.dropWhile isSpaceChar with
      | '(' :: rest4 =>
        let body := rest4.takeWhile (fun c => c ≠ ')')
        if body.isEmpty then none
        else
          match rest4.dropWhile (fun c => c ≠ ')') with
          | ')' :: rest6 =>
            some (s.take 6 ++ sp1 ++ '@' :: sp2 ++ '(' :: body ++ [')'], rest6)
          | _ => none
      | _ => none
    | _ => none
  else none

/-- `re.findall(r'always\s*@\s*\([^)]+\)', code, re.IGNORECASE)`. -/
def findAlwaysHeaders (s : List Char) : List (List Char) :=
  scanAux tryAlwaysHeader s.length s

/-- Matcher for `or\s+(?!posedge|negedge)(\w+)` (applied to lowercased
text): `or`, mandatory whitespace, a word run not starting with
`posedge`/`negedge`. -/
def tryOrSignal (s : List Char) : Option (List Char × List Char) :=
  match s with
  | 'o' :: 'r' :: rest1 =>
    if (rest1.takeWhile isSpaceChar).isEmpty then none
    else
      let rest2 := rest1.dropWhile isSpaceChar
      if "posedge".toList.isPrefixOf rest2 || "negedge".toList.isPrefixOf rest2 then none
      else
        let w := rest2.takeWhile isWordChar
        if w.isEmpty then none else some (w, rest2.dropWhile isWordChar)
  | _ => none

/-- `re.findall(r'or\s+(?!posedge|negedge)(\w+)', block.lower())`. -/
def findOrSignals (s : List Char) : List (List Char) :=
  scanAux tryOrSignal s.length s

/-- Matcher for `assign\s+(\w+)\s*=` (case-sensitive) at the current
position. -/
def tryAssignStmt (s : List Char) : Option (List Char × List Char) :=
  if "assign".toList.isPrefixOf s then
    let rest0 := s.drop 6
    if (rest0.takeWhile isSpaceChar).isEmpty then none
    else
      let rest1 := rest0.dropWhile isSpaceChar
      let w := rest1.takeWhile isWordChar
      if w.isEmpty then none
      else
        match (rest1.dropWhile isWordChar).dropWhile isSpaceChar with
        | '=' :: r => some (w, r)
        | _ => none
  else none

/-- `re.findall(r'assign\s+(\w+)\s*=', code)`. -/
def findAssignStmts (s : List Char) : List (List Char) :=
  scanAux tryAssignStmt s.length s

def isDigitChar (c : Char) : Bool := c.isDigit

def digitsToNat (l : List Char) : ℕ :=
  l.foldl (fun acc c => 10 * acc + (c.toNat - '0'.toNat)) 0

/-- Matcher for `\[(\d+):(\d+)\]\s*(\w+)` at the current position. -/
def tryWidthDecl (s : List Char) : Option ((ℕ × ℕ × List Char) × List Char) :=
  match s with
  | '[' :: rest1 =>
    let d1 := rest1.takeWhile isDigitChar
    if d1.isEmpty then none
    else
      match rest1.dropWhile isDigitChar with
      | ':' :: rest3 =>
        let d2 := rest3.takeWhile isDigitChar
        if d2.isEmpty then none
        else
          match rest3.dropWhile isDigitChar with
          | ']' :: rest5 =>
            let rest6 := rest5.dropWhile isSpaceChar
            let w := rest6.takeWhile isWordChar
            if w.isEmpty then none
            else some ((digitsToNat d1, digitsToNat d2, w), rest6.dropWhile isWordChar)
          | _ => none
      | _ => none
  | _ => none

/-- `re.findall(r'\[(\d+):(\d+)\]\s*(\w+)', code)`. -/
def findWidthDecls (s : List Char) : List (ℕ × ℕ × List Char) :=
  scanAux tryWidthDecl s.length s

/-- Matcher for the interpolated `f'{signal}\s*<=\s*([^;]+)'`: when the
greedy `[^;]+` would be empty right after the whitespace run, the `\s*`
backtracks one character so the capture becomes that single whitespace
character (exactly Python's behaviour, e.g. on `x <= ;`). -/
def trySigAssignRHS (sig : List Char) (s : List Char) : Option (List Char × List Char) :=
  if sig.isPrefixOf s then
    match (s.drop sig.length).dropWhile isSpaceChar with
    | '<' :: '=' :: rest2 =>
      let sp := rest2.takeWhile isSpaceChar
      let afterSp := rest2.dropWhile isSpaceChar
      let body := afterSp.takeWhile (fun c => c ≠ ';')
      if body.isEmpty then
        if hsp : sp.isEmpty then none
        else some ([sp.getLast (by simpa [List.isEmpty_iff] using hsp)], afterSp)
      else some (body, afterSp.dropWhile (fun c => c ≠ ';'))
    | _ => none
  else none

/-- `re.findall(f'{signal}\s*<=\s*([^;]+)', code)`. -/
def findSigAssignRHS (sig : List Char) (s : List Char) : List (List Char) :=
  scanAux (trySigAssignRHS sig) s.length s

/-- Matcher for `(\d+)'[bd]`, returning the literal's bit width. -/
def tryLitWidth (s : List Char) : Option (ℕ × List Char) :=
  let d := s.takeWhile isDigitChar
  if d.isEmpty then none
  else
    match s.dropWhile isDigitChar with
    | '\'' :: b :: rest => if b = 'b' || b = 'd' then some (digitsToNat d, rest) else none
    | _ => none

/-- `re.search(r"(\d+)'[bd]", assignment)` returning the captured width. -/
def searchLitWidth (s : List Char) : Option ℕ := searchAux tryLitWidth s.length s

/-- Matcher for `reg\s+(?:\[[\d:]+\]\s+)?(\w+)`: when a `[` follows the
mandatory whitespace the optional group must parse (skipping it leaves
`(\w+)` facing the `[`, which fails). -/
def tryRegDecl (s : List Char) : Option (List Char × List Char) :=
  if "reg".toList.isPrefixOf s then
    let rest0 := s.drop 3
    if (rest0.takeWhile isSpaceChar).isEmpty then none
    else
      match rest0.dropWhile isSpaceChar with
      | '[' :: rest2 =>
        let dc := rest2.takeWhile (fun c => isDigitChar c || c = ':')
        if dc.isEmpty then none
        else
          match rest2.dropWhile (fun c => isDigitChar c || c = ':') with
          | ']' :: rest3 =>
            if (rest3.takeWhile isSpaceChar).isEmpty then none
            else
              let rest4 := rest3.dropWhile isSpaceChar
              let w := rest4.takeWhile isWordChar
              if w.isEmpty then none else some (w, rest4.dropWhile isWordChar)
          | _ => none
      | c :: rest2 =>
        let w := (c :: rest2).takeWhile isWordChar
        if w.isEmpty then none else some (w, (c :: rest2).dropWhile isWordChar)
      | [] => none
  else none

/-- `re.findall(r'reg\s+(?:\[[\d:]+\]\s+)?(\w+)', code)`. -/
def findRegDecls (s : List Char) : List (List Char) :=
  scanAux tryRegDecl s.length s

/-- Matcher for `reg\s+\[[\d:]+\]`. -/
def tryRegWidthSpec (s : List Char) : Option (Unit × List Char) :=
  if "reg".toList.isPrefixOf s then
    let rest0 := s.drop 3
    if (rest0.takeWhile isSpaceChar).isEmpty then none
    else
      match rest0.dropWhile isSpaceChar with
      | '[' :: rest2 =>
        let dc := rest2.takeWhile (fun c => isDigitChar c || c = ':')
        if dc.isEmpty then none
        else
          match rest2.dropWhile (fun c => isDigitChar c || c = ':') with
          | ']' :: rest3 => some ((), rest3)
          | _ => none
      | _ => none
  else none

/-- `re.findall(r'reg\s+\[[\d:]+\]', code)` (only its length is used). -/
def findRegWidthSpecs (s : List Char) : List Unit :=
  scanAux tryRegWidthSpec s.length s

/-- `re.search(r'module\s+TopModule', code)` as a Boolean. -/
def tryModuleTop (s : List Char) : Option (Unit × List Char) :=
  if "module".toList.isPrefixOf s then
    let rest0 := s.drop 6
    if (rest0.takeWhile isSpaceChar).isEmpty then none
    else if "TopModule".toList.isPrefixOf (rest0.dropWhile isSpaceChar) then
      some ((), rest0.dropWhile isSpaceChar)
    else none
  else none

def hasModuleTop (s : List Char) : Bool := (searchAux tryModuleTop s.length s).isSome

/-- `re.search(r'module\s+[a-zA-Z_][a-zA-Z0-9_]*', code)` as a Boolean. -/
def tryModuleName (s : List Char) : Option (Unit × List Char) :=
  if "module".toList.isPrefixOf s then
    let rest0 := s.drop 6
    if (rest0.takeWhile isSpaceChar).isEmpty then none
    else
      match rest0.dropWhile isSpaceChar with
      | c :: rest => if c.isAlpha || c = '_' then some ((), rest) else none
      | [] => none
  else none

def hasModuleName (s : List Char) : Bool := (searchAux tryModuleName s.length s).isSome

/-- `str.split('\n')`. -/
def splitLines (s : List Char) : List (List Char) := s.splitOn '\n'

/-- `line.strip()` truthiness. -/
def lineNonBlank (l : List Char) : Bool := !(l.all isSpaceChar)

/-- `line.startswith(' ') or line.startswith('\t')`. -/
def lineIndented (l : List Char) : Bool :=
  l.head? = some ' ' || l.head? = some '\t'

/-- `not code or not code.strip()`. -/
def pyBlank (s : String) : Bool := s.toList.all isSpaceChar

/-- The distinct-signal penalty of the first loop of
`_evaluate_logic_errors` (`quality_evaluator.py` lines 160-168): 0.2 for a
block whose `(\w+)\s*<=` targets name more than 3 distinct signals, 0.1
for more than 2 (i.e. exactly 3), else 0. -/
def blockSignalPenalty (block : List Char) : ℚ :=
  let n := (findAssignTargets block).dedup.length
  if n > 3 then 0.2 else if n > 2 then 0.1 else 0

/-- The sequential-logic penalties of the third loop of
`_evaluate_logic_errors` (lines 184-202): for a block containing `@` and
(case-insensitively) `posedge`, 0.1 if no reset guard is found and 0.1 if
more than two lines carry a `sig <= sig;` self-assignment.  (The `if_count`
variable of the source is computed but never used.) -/
def blockSeqPenalty (block : List Char) : ℚ :=
  if block.contains '@' && containsSub "posedge".toList (block.map Char.toLower) then
    (if hasResetGuard block then 0 else 0.1) +
    (if ((splitLines block).filter lineHasSelfAssign).length > 2 then 0.1 else 0)
  else 0

/-- The multiple-driver penalty of the second loop of
`_evaluate_logic_errors` (lines 170-182): 0.15 for each distinct assigned
signal that `f'{signal}\s*<='`-matches inside more than one extracted
always block. -/
def signalConflictPenalty (code : List Char) (blocks : List (List Char)) : ℚ :=
  ((findAssignTargets code).dedup.map (fun sig =>
    if (blocks.filter (fun b => containsAssignTo sig b)).length > 1 then (0.15 : ℚ)
    else 0)).sum

/-- `HDLQualityEvaluator._evaluate_logic_errors` (lines 153-204). -/
def evaluate_logic_errors (code : String) : ℚ :=
  let cl := code.toList
  let blocks := findAlwaysBlocks cl
  min ((blocks.map blockSignalPenalty).sum + signalConflictPenalty cl blocks +
    (blocks.map blockSeqPenalty).sum) 0.4

/-- The mixed-sensitivity penalty of `_evaluate_synthesis_issues`
(lines 211-220): 0.05 for a header containing an edge keyword and `or`
with more than one non-edge `or`-signal. -/
def headerMixPenalty (h : List Char) : ℚ :=
  let hl := h.map Char.toLower
  if (containsSub "posedge".toList hl || containsSub "negedge".toList hl) &&
      containsSub "or".toList hl then
    if (findOrSignals hl).length > 1 then 0.05 else 0
  else 0

/-- The literal-width penalty of `_evaluate_synthesis_issues`
(lines 230-246) for one `[hi:lo] sig` declaration: 0.05 per
`sig <= rhs` whose rhs mentions `'b`/`'d` and whose first `(\d+)'[bd]`
literal width differs from `hi - lo + 1`. -/
def widthMismatchPenalty (code : List Char) (decl : ℕ × ℕ × List Char) : ℚ :=
  ((findSigAssignRHS decl.2.2 code).map (fun a =>
    if containsSub "'b".toList a || containsSub "'d".toList a then
      match searchLitWidth a with
      | some w => if (w : ℤ) ≠ (decl.1 : ℤ) - (decl.2.1 : ℤ) + 1 then (0.05 : ℚ) else 0
      | none => 0
    else 0)).sum

/-- `HDLQualityEvaluator._evaluate_synthesis_issues` (lines 206-248). -/
def evaluate_synthesis_issues (code : String) : ℚ :=
  let cl := code.toList
  let alwaysTargets := findAssignTargets cl
  min (((findAlwaysHeaders cl).map headerMixPenalty).sum +
    ((findAssignStmts cl).map (fun s => if s ∈ alwaysTargets then (0.1 : ℚ) else 0)).sum +
    ((findWidthDecls cl).map (widthMismatchPenalty cl)).sum) 0.2

/-- `HDLQualityEvaluator._evaluate_style_issues` (lines 250-281).  The
indentation test `len(indented_lines) < len(lines) * 0.3` and the spacing
test `code.count(' (') < code.count('(') * 0.5` are computed in exact
rational arithmetic here; `0.5` is float-exact, and `0.3` agrees except on
inputs where `len(lines) * 0.3` is an exact float boundary — no claim
depends on that threshold. -/
def evaluate_style_issues (code : String) : ℚ :=
  let cl := code.toList
  let lines := (splitLines cl).filter lineNonBlank
  min ((if lines ≠ [] ∧
        ((lines.filter lineIndented).length : ℚ) < (lines.length : ℚ) * 0.3
      then (0.02 : ℚ) else 0) +
    (if (findRegDecls cl).length > (findRegWidthSpecs cl).length ∧
        (findRegDecls cl).length > 2 then (0.01 : ℚ) else 0) +
    (if (findResetPatterns cl).dedup.length > 1 then (0.01 : ℚ) else 0) +
    (if containsSub "input wire".toList cl ∧ containsSub "input".toList cl ∧
        countSub "input wire".toList cl < countSub "input".toList cl
      then (0.01 : ℚ) else 0) +
    (if cl.contains '(' ∧ ((countSub " (".toList cl : ℚ) < (cl.count '(' : ℚ) * 0.5)
      then (0.01 : ℚ) else 0)) 0.06

/-- `HDLQualityEvaluator._severity_weighted_evaluation` (lines 127-151):
base 0.85 minus the three penalty analyses, floored at 0.45. -/
def severity_weighted_evaluation (code : String) : ℚ :=
  max (0.85 - (evaluate_logic_errors code + evaluate_synthesis_issues code +
    evaluate_style_issues code)) 0.45

/-- `HDLQualityEvaluator._fallback_evaluation` (lines 338-366), additive
scoring capped at 0.6; `dataset` selects the module-name convention. -/
def fallback_evaluation (dataset : String) (code : String) : ℚ :=
  let cl := code.toList
  min ((if containsSub "module".toList cl ∧ containsSub "endmodule".toList cl
      then (0.2 : ℚ) else 0) +
    (if containsSub "input".toList cl ∨ containsSub "output".toList cl
      then (0.15 : ℚ) else 0) +
    min (((["always", "assign", "if", "case", "for", "while"].filter
        (fun kw => containsSub kw.toList cl)).length : ℚ) * 0.05) 0.15 +
    (if dataset = "verilogeval" then (if hasModuleTop cl then (0.1 : ℚ) else 0)
      else (if hasModuleName cl then (0.1 : ℚ) else 0)) +
    (if 5 ≤ ((splitLines cl).filter lineNonBlank).length ∧
        ((splitLines cl).filter lineNonBlank).length ≤ 200 then (0.05 : ℚ) else 0) +
    (if cl.count '(' = cl.count ')' ∧ cl.count '[' = cl.count ']'
      then (0.05 : ℚ) else 0)) 0.6

/-- `HDLQualityEvaluator.evaluate_quality` (lines 21-44).  `synOk` is the
outcome of the iverilog syntax compilation `_test_syntax` and `fnOk` the
outcome of the testbench simulation `_test_function` (`function_score >
0.0`) — both external subprocess verdicts, universally quantified in the
theorems; the simulation is only consulted when syntax passes. -/
def evaluate_quality (synOk fnOk : Bool) (dataset : String) (code : String) : ℚ :=
  if pyBlank code then 0
  else if synOk = false then fallback_evaluation dataset code
  else if fnOk then 1
  else severity_weighted_evaluation code

theorem blockSignalPenalty_nonneg (b : List Char) : 0 ≤ blockSignalPenalty b := by
  unfold blockSignalPenalty
  dsimp only
  split
  · norm_num
  · split <;> norm_num

theorem blockSeqPenalty_nonneg (b : List Char) : 0 ≤ blockSeqPenalty b := by
  unfold blockSeqPenalty
  split
  · apply add_nonneg
    · split <;> norm_num
    · split <;> norm_num
  · norm_num

theorem signalConflictPenalty_nonneg (code : List Char) (blocks : List (List Char)) :
    0 ≤ signalConflictPenalty code blocks := by
  unfold signalConflictPenalty
  apply List.sum_nonneg
  intro x hx
  rcases List.mem_map.mp hx with ⟨sig, _, rfl⟩
  split <;> norm_num

theorem evaluate_logic_errors_nonneg (code : String) : 0 ≤ evaluate_logic_errors code := by
  unfold evaluate_logic_errors
  apply le_min
  · apply add_nonneg
    apply add_nonneg
    · exact List.sum_nonneg fun x hx => by
        rcases List.mem_map.mp hx with ⟨b, _, rfl⟩
        exact blockSignalPenalty_nonneg b
    · exact signalConflictPenalty_nonneg _ _
    · exact List.sum_nonneg fun x hx => by
        rcases List.mem_map.mp hx with ⟨b, _, rfl⟩
        exact blockSeqPenalty_nonneg b
  · norm_num

theorem evaluate_logic_errors_le (code : String) : evaluate_logic_errors code ≤ 0.4 := by
  unfold evaluate_logic_errors
  exact min_le_right _ _

theorem headerMixPenalty_nonneg (h : List Char) : 0 ≤ headerMixPenalty h := by
  unfold headerMixPenalty
  dsimp only
  split
  · split <;> norm_num
  · norm_num

theorem widthMismatchPenalty_nonneg (code : List Char) (decl : ℕ × ℕ × List Char) :
    0 ≤ widthMismatchPenalty code decl := by
  unfold widthMismatchPenalty
  apply List.sum_nonneg
  intro x hx
  rcases List.mem_map.mp hx with ⟨a, _, rfl⟩
  split
  · split
    · split <;> norm_num
    · norm_num
  · norm_num

theorem evaluate_synthesis_issues_nonneg (code : String) :
    0 ≤ evaluate_synthesis_issues code := by
  unfold evaluate_synthesis_issues
  apply le_min
  · apply add_nonneg
    apply add_nonneg
    · exact List.sum_nonneg fun x hx => by
        rcases List.mem_map.mp hx with ⟨h, _, rfl⟩
        exact headerMixPenalty_nonneg h
    · exact List.sum_nonneg fun x hx => by
        rcases List.mem_map.mp hx with ⟨s, _, rfl⟩
        split <;> norm_num
    · exact List.sum_nonneg fun x hx => by
        rcases List.mem_map.mp hx with ⟨d, _, rfl⟩
        exact widthMismatchPenalty_nonneg _ d
  · norm_num

theorem evaluate_synthesis_issues_le (code : String) :
    evaluate_synthesis_issues code ≤ 0.2 := by
  unfold evaluate_synthesis_issues
  exact min_le_right _ _

theorem evaluate_style_issues_nonneg (code : String) : 0 ≤ evaluate_style_issues code := by
  unfold evaluate_style_issues
  apply le_min
  · apply add_nonneg
    apply add_nonneg
    apply add_nonneg
    apply add_nonneg
    all_goals split <;> norm_num
  · norm_num

theorem evaluate_style_issues_le (code : String) : evaluate_style_issues code ≤ 0.06 := by
  unfold evaluate_style_issues
  exact min_le_right _ _

theorem severity_lower (code : String) : 0.45 ≤ severity_weighted_evaluation code := by
  unfold severity_weighted_evaluation
  exact le_max_right _ _

theorem severity_upper (code : String) : severity_weighted_evaluation code ≤ 0.85 := by
  unfold severity_weighted_evaluation
  apply max_le
  · apply sub_le_self
    apply add_nonneg
    apply add_nonneg
    · exact evaluate_logic_errors_nonneg code
    · exact evaluate_synthesis_issues_nonneg code
    · exact evaluate_style_issues_nonneg code
  · norm_num

theorem fallback_nonneg (dataset code : String) : 0 ≤ fallback_evaluation dataset code := by
  unfold fallback_evaluation
  apply le_min
  · apply add_nonneg
    apply add_nonneg
    apply add_nonneg
    apply add_nonneg
    apply add_nonneg
    · split <;> norm_num
    · split <;> norm_num
    · apply le_min
      · positivity
      · norm_num
    · split
      · split <;> norm_num
      · split <;> norm_num
    · split <;> norm_num
    · split <;> norm_num
  · norm_num

theorem fallback_le (dataset code : String) : fallback_evaluation dataset code ≤ 0.6 := by
  unfold fallback_evaluation
  exact min_le_right _ _

/-- Claim C1: the `evaluate_quality` cascade — empty or whitespace-only code
scores 0.0; code failing the (external) syntax check scores the fallback
heuristic, which lies in [0, 0.6]; code passing syntax and simulation
scores exactly 1.0; code passing syntax but failing simulation scores the
severity-weighted value, which lies in [0.45, 0.85]. -/
theorem claim_C1 (synOk fnOk : Bool) (dataset code : String) :
    (pyBlank code = true → evaluate_quality synOk fnOk dataset code = 0) ∧
    (pyBlank code = false → synOk = false →
      evaluate_quality synOk fnOk dataset code = fallback_evaluation dataset code ∧
      0 ≤ fallback_evaluation dataset code ∧ fallback_evaluation dataset code ≤ 0.6) ∧
    (pyBlank code = false → synOk = true → fnOk = true →
      evaluate_quality synOk fnOk dataset code = 1) ∧
    (pyBlank code = false → synOk = true → fnOk = false →
      evaluate_quality synOk fnOk dataset code = severity_weighted_evaluation code ∧
      0.45 ≤ severity_weighted_evaluation code ∧
      severity_weighted_evaluation code ≤ 0.85) := by
  refine ⟨?_, ?_, ?_, ?_⟩
  · intro hb
    simp [evaluate_quality, hb]
  · intro hb hs
    subst hs
    exact ⟨by simp [evaluate_quality, hb], fallback_nonneg dataset code, fallback_le dataset code⟩
  · intro hb hs hf
    subst hs; subst hf
    simp [evaluate_quality, hb]
  · intro hb hs hf
    subst hs; subst hf
    exact ⟨by simp [evaluate_quality, hb], severity_lower code, severity_upper code⟩

theorem claim_C1_witness :
    evaluate_quality false false "rtllm" " " = 0 ∧
    evaluate_quality false false "rtllm" "x" = fallback_evaluation "rtllm" "x" ∧
    evaluate_quality true true "rtllm" "x" = 1 ∧
    evaluate_quality true false "rtllm" "x" = severity_weighted_evaluation "x" :=
  ⟨(claim_C1 false false "rtllm" " ").1 (by decide),
   ((claim_C1 false false "rtllm" "x").2.1 (by decide) rfl).1,
   (claim_C1 true true "rtllm" "x").2.2.1 (by decide) rfl rfl,
   ((claim_C1 true false "rtllm" "x").2.2.2 (by decide) rfl rfl).1⟩

/-- Claim C6: for non-blank code that passes syntax but fails simulation the
score equals `max(0.85 − (L + S + T), 0.45)` with the logic penalty `L`
capped at 0.40, the synthesis penalty `S` capped at 0.20 and the style
penalty `T` capped at 0.06; in particular a single sequential block driving
exactly 3 distinct left-hand-side signals adds 0.1 and one driving more
than 3 adds 0.2. -/
theorem claim_C6 (dataset code : String) (hnb : pyBlank code = false) :
    evaluate_quality true false dataset code
      = max (0.85 - (evaluate_logic_errors code + evaluate_synthesis_issues code +
          evaluate_style_issues code)) 0.45 ∧
    0 ≤ evaluate_logic_errors code ∧ evaluate_logic_errors code ≤ 0.4 ∧
    0 ≤ evaluate_synthesis_issues code ∧ evaluate_synthesis_issues code ≤ 0.2 ∧
    0 ≤ evaluate_style_issues code ∧ evaluate_style_issues code ≤ 0.06 ∧
    (∀ block : List Char, (findAssignTargets block).dedup.length = 3 →
      blockSignalPenalty block = 0.1) ∧
    (∀ block : List Char, 3 < (findAssignTargets block).dedup.length →
      blockSignalPenalty block = 0.2) := by
  refine ⟨by simp [evaluate_quality, hnb, severity_weighted_evaluation],
    evaluate_logic_errors_nonneg code, evaluate_logic_errors_le code,
    evaluate_synthesis_issues_nonneg code, evaluate_synthesis_issues_le code,
    evaluate_style_issues_nonneg code, evaluate_style_issues_le code, ?_, ?_⟩
  · intro block h
    simp [blockSignalPenalty, h]
  · intro block h
    simp [blockSignalPenalty, h]

theorem claim_C6_witness :
    evaluate_quality true false "rtllm" "q <= a;"
      = max (0.85 - (evaluate_logic_errors "q <= a;" + evaluate_synthesis_issues "q <= a;" +
          evaluate_style_issues "q <= a;")) 0.45 ∧
    blockSignalPenalty "a <= 1; b <= 1; c <= 1;".toList = 0.1 ∧
    blockSignalPenalty "a <= 1; b <= 1; c <= 1; d <= 1;".toList = 0.2 :=
  ⟨(claim_C6 "rtllm" "q <= a;" (by decide)).1,
   (claim_C6 "rtllm" "q <= a;" (by decide)).2.2.2.2.2.2.2.1
     "a <= 1; b <= 1; c <= 1;".toList (by decide),
   (claim_C6 "rtllm" "q <= a;" (by decide)).2.2.2.2.2.2.2.2
     "a <= 1; b <= 1; c <= 1; d <= 1;".toList (by decide)⟩

/-- Claim C10: the fallback heuristic is the sum of independent additive
components — 0.2 for containing both `module` and `endmodule`, 0.15 for an
`input`/`output` declaration, 0.05 per distinct control keyword present
capped at 0.15, 0.1 for the dataset's required top-level module-name
convention, 0.05 for a non-blank line count between 5 and 200, and 0.05
for balanced parentheses and brackets — capped at 0.6 (and hence within
[0, 0.6]). -/
theorem claim_C10 (dataset code : String) :
    fallback_evaluation dataset code
      = min ((if containsSub "module".toList code.toList ∧
            containsSub "endmodule".toList code.toList then (0.2 : ℚ) else 0) +
        (if containsSub "input".toList code.toList ∨
            containsSub "output".toList code.toList then (0.15 : ℚ) else 0) +
        min (((["always", "assign", "if", "case", "for", "while"].filter
            (fun kw => containsSub kw.toList code.toList)).length : ℚ) * 0.05) 0.15 +
        (if dataset = "verilogeval" then
            (if hasModuleTop code.toList then (0.1 : ℚ) else 0)
          else (if hasModuleName code.toList then (0.1 : ℚ) else 0)) +
        (if 5 ≤ ((splitLines code.toList).filter lineNonBlank).length ∧
            ((splitLines code.toList).filter lineNonBlank).length ≤ 200
          then (0.05 : ℚ) else 0) +
        (if code.toList.count '(' = code.toList.count ')' ∧
            code.toList.count '[' = code.toList.count ']'
          then (0.05 : ℚ) else 0)) 0.6 ∧
    0 ≤ fallback_evaluation dataset code ∧ fallback_evaluation dataset code ≤ 0.6 :=
  ⟨rfl, fallback_nonneg dataset code, fallback_le dataset code⟩

end HDLGen
